import Mathlib

/-!
Verification of the control-flow flattening pass in
`lib/Transforms/Obfuscate/Flattening.cpp` (function `Flattening::flatten`).

The pass is embedded shallowly:

* A basic block (`Blk`) is a list of instructions (`Ins`) plus one
  terminator (`Tm`).  Instructions of the original procedure are kept
  abstract as state transformers `Ins.op (f : S → S)` over a program state
  type `S`; the instructions inserted by the pass (the `AllocaInst`,
  the `StoreInst` of the initial label, the `LoadInst` of the switch
  variable, and the `SExt`/`Xor`/`And`/`Xor`/`Store` chain computing the
  next label) are explicit constructors so that the structure of the
  rewritten blocks is inspectable.
* A procedure (`Fn`) is a list of named blocks; list order is layout
  order, the head is the entry block, and branch targets are names.
* The machine state `St` is the program state plus the memory cell of
  the `switchVar` alloca and the most recently loaded value of it.
* Execution is a fuel-indexed interpreter `exec`.
* `flatten` is a functional translation of `Flattening::flatten`,
  parameterized on the random label stream (`rand`, the draws of
  `randomBBIndex`) and the shuffled block order (`bbSeq`, the result of
  `std::shuffle` on `iota`).  It returns `FlatRes.rejected` where the
  C++ returns `false` untouched, `FlatRes.fault` where the C++ would
  fail its assertion or index a vector out of bounds, and
  `FlatRes.ok F` with the rewritten procedure where the C++ mutates in
  place and returns `true`.
-/

variable {S : Type}

/-- The modulus of 32-bit unsigned arithmetic (`uint32_t`). -/
def UINT32 : Nat := 2 ^ 32

/-- Sign extension of an `i1` value to `i32`, as computed by the
`SExtInst` created at lines 169/176: all ones for `true`, zero for
`false`. -/
def sext32 (b : Bool) : Nat := if b then UINT32 - 1 else 0

/-- Machine state: `s` is the state of the original program (registers,
memory, I/O — everything the original instructions touch), `mem` is the
memory cell of the `switchVar` alloca, and `loaded` is the value of the
`LoadInst` issued in the dispatch header. -/
structure St (S : Type) where
  s : S
  mem : Nat
  loaded : Nat

/-- The condition operand fed to the `SExtInst`: either the constant
`i1 0` (line 169, single-successor case) or the condition of the branch
(line 176), read from the program state. -/
inductive Cnd (S : Type) where
  | cfalse : Cnd S
  | cvar (c : S → Bool) : Cnd S

/-- Evaluate a condition operand in a program state. -/
def Cnd.eval : Cnd S → S → Bool
  | .cfalse, _ => false
  | .cvar c, s => c s

/-- Instructions.  `op` is an arbitrary instruction of the original
procedure; the remaining constructors are the instructions inserted by
the pass.  `storeComputed c k1 k2` stands for the chain
`sext`/`xor`/`and`/`xor`/`store` of lines 169–192 with the two constant
operands `k1 = bbIndex[succIndexTrue] ^ bbIndex[succIndexFalse]` and
`k2 = bbIndex[b] ^ bbIndex[succIndexFalse]`. -/
inductive Ins (S : Type) where
  | op (f : S → S)
  | alloca
  | storeConst (v : Nat)
  | loadSwitch
  | storeComputed (c : Cnd S) (k1 k2 : Nat)

/-- Run one instruction. -/
def Ins.run : Ins S → St S → St S
  | .op f, st => ⟨f st.s, st.mem, st.loaded⟩
  | .alloca, st => st
  | .storeConst v, st => ⟨st.s, v, st.loaded⟩
  | .loadSwitch, st => ⟨st.s, st.mem, st.mem⟩
  | .storeComputed c k1 k2, st =>
      ⟨st.s, (sext32 (c.eval st.s) &&& k1) ^^^ (k2 ^^^ st.loaded), st.loaded⟩

/-- Run a list of instructions in order. -/
def runIns (l : List (Ins S)) (st : St S) : St S :=
  l.foldl (fun st i => i.run st) st

/-- Terminators: return, unconditional branch, conditional branch, the
switch on the loaded state value built by the pass, and the
`InvokeInst` form that the validator rejects. -/
inductive Tm (S : Type) where
  | ret
  | br (t : Nat)
  | condbr (c : S → Bool) (tb fb : Nat)
  | switchLoaded (cases : List (Nat × Nat)) (dflt : Nat)
  | invoke (n u : Nat)

/-- First-match association lookup (models both `llvm::SwitchInst` case
resolution and block lookup by identity). -/
def assoc {β : Type} : List (Nat × β) → Nat → Option β
  | [], _ => none
  | (k, v) :: l, n => if k = n then some v else assoc l n

/-- Evaluate a terminator: `none` means unsupported (stuck), `some none`
means the procedure returns, `some (some b)` transfers control to block
`b`. -/
def Tm.next : Tm S → St S → Option (Option Nat)
  | .ret, _ => some none
  | .br t, _ => some (some t)
  | .condbr c tb fb, st => some (some (if c st.s then tb else fb))
  | .switchLoaded cs d, st => some (some ((assoc cs st.loaded).getD d))
  | .invoke _ _, _ => none

/-- Number of successors of a terminator (`getNumSuccessors`). -/
def Tm.numSucc : Tm S → Nat
  | .ret => 0
  | .br _ => 1
  | .condbr _ _ _ => 2
  | .switchLoaded cs _ => cs.length + 1
  | .invoke _ _ => 2

/-- First successor of a terminator (`getSuccessor(0)`; for a switch
this is the default target). -/
def Tm.succ0 : Tm S → Nat
  | .ret => 0
  | .br t => t
  | .condbr _ tb _ => tb
  | .switchLoaded _ d => d
  | .invoke n _ => n

/-- Whether the terminator is a conditional `BranchInst`
(`isa<BranchInst> && isConditional`). -/
def Tm.isCondbrB : Tm S → Bool
  | .condbr _ _ _ => true
  | _ => false

/-- Whether the terminator is an `InvokeInst` (`isa<InvokeInst>`). -/
def Tm.isInvokeB : Tm S → Bool
  | .invoke _ _ => true
  | _ => false

/-- Targets reachable through a branch terminator. -/
def Tm.branchSuccs : Tm S → List Nat
  | .br t => [t]
  | .condbr _ tb fb => [tb, fb]
  | _ => []

/-- A basic block: instruction list plus terminator. -/
structure Blk (S : Type) where
  ins : List (Ins S)
  term : Tm S

/-- A procedure: list of named blocks, head is the entry block, list
order is layout order. -/
structure Fn (S : Type) where
  blocks : List (Nat × Blk S)

/-- Fuel-indexed execution starting at block `b`: returns the final
machine state if the procedure returns within the given fuel. -/
def exec (f : Fn S) : Nat → Nat → St S → Option (St S)
  | 0, _, _ => none
  | Nat.succ k, b, st =>
    match assoc f.blocks b with
    | none => none
    | some blk =>
      match Tm.next blk.term (runIns blk.ins st) with
      | none => none
      | some none => some (runIns blk.ins st)
      | some (some nxt) => exec f k nxt (runIns blk.ins st)

/-- Selection identity of the branchless next-state formula. -/
theorem sel_eq (b : Bool) (tl fl cl : Nat) (ht : tl < UINT32) (hf : fl < UINT32) :
    (sext32 b &&& (tl ^^^ fl)) ^^^ ((cl ^^^ fl) ^^^ cl) = if b then tl else fl := by
  have hbase : (cl ^^^ fl) ^^^ cl = fl := by
    rw [Nat.xor_comm cl fl, Nat.xor_assoc, Nat.xor_self, Nat.xor_zero]
  rw [hbase]
  cases b with
  | false => simp [sext32]
  | true =>
    have hx : tl ^^^ fl < 2 ^ 32 := Nat.xor_lt_two_pow (by simpa [UINT32] using ht) (by simpa [UINT32] using hf)
    have hone : sext32 true &&& (tl ^^^ fl) = tl ^^^ fl := by
      rw [sext32, if_pos rfl, UINT32, Nat.and_comm,
        Nat.and_pow_two_sub_one_of_lt_two_pow hx]
    rw [hone, Nat.xor_assoc, Nat.xor_self, Nat.xor_zero, if_pos rfl]

/-- Claim C1: for every boolean condition, every pair of 32-bit labels
`trueLabel` and `falseLabel`, and every current-block label `currLabel`,
with the loaded state value equal to `currLabel`, the computed
next-state value `(sext(c) AND (trueLabel XOR falseLabel)) XOR
((currLabel XOR falseLabel) XOR loadedState)` equals `trueLabel` when
the condition is true and `falseLabel` when it is false. -/
theorem flatten_cond_formula_correct {S : Type} (s : S) (m : Nat) (c : S → Bool)
    (trueLabel falseLabel currLabel : Nat)
    (ht : trueLabel < UINT32) (hf : falseLabel < UINT32) :
    ((Ins.storeComputed (Cnd.cvar c) (trueLabel ^^^ falseLabel)
        (currLabel ^^^ falseLabel)).run ⟨s, m, currLabel⟩).mem =
      if c s then trueLabel else falseLabel := by
  show (sext32 ((Cnd.cvar c).eval s) &&& (trueLabel ^^^ falseLabel)) ^^^
      ((currLabel ^^^ falseLabel) ^^^ currLabel) = if c s then trueLabel else falseLabel
  rw [Cnd.eval]
  exact sel_eq (c s) trueLabel falseLabel currLabel ht hf

/-- Witness for claim C1 at concrete labels, for both condition values. -/
theorem flatten_cond_formula_correct_witness :
    (((Ins.storeComputed (Cnd.cvar (fun b : Bool => b)) ((5 : Nat) ^^^ 9)
        ((7 : Nat) ^^^ 9)).run ⟨true, 0, 7⟩).mem = if (fun b : Bool => b) true then 5 else 9) ∧
    (((Ins.storeComputed (Cnd.cvar (fun b : Bool => b)) ((5 : Nat) ^^^ 9)
        ((7 : Nat) ^^^ 9)).run ⟨false, 0, 7⟩).mem = if (fun b : Bool => b) false then 5 else 9) :=
  ⟨flatten_cond_formula_correct true 0 (fun b => b) 5 9 7 (by decide) (by decide),
   flatten_cond_formula_correct false 0 (fun b => b) 5 9 7 (by decide) (by decide)⟩

/-- Claim C6: the branchless formula with the condition forced to the
constant zero stores exactly the successor target label, whatever label
is used in the true-branch position: it is exactly the instruction that
directly assigns the target label to the state variable.  No bound on
any label is needed. -/
theorem flatten_uncond_formula_is_direct_assign {S : Type} (s : S) (m : Nat)
    (anyTrueLabel targetLabel currLabel : Nat) :
    (Ins.storeComputed Cnd.cfalse (anyTrueLabel ^^^ targetLabel)
        (currLabel ^^^ targetLabel)).run ⟨s, m, currLabel⟩ =
      (Ins.storeConst targetLabel).run ⟨s, m, currLabel⟩ := by
  show (⟨s, (sext32 (Cnd.cfalse.eval s) &&& (anyTrueLabel ^^^ targetLabel)) ^^^
      ((currLabel ^^^ targetLabel) ^^^ currLabel), currLabel⟩ : St S) = ⟨s, targetLabel, currLabel⟩
  have hbase : (currLabel ^^^ targetLabel) ^^^ currLabel = targetLabel := by
    rw [Nat.xor_comm currLabel targetLabel, Nat.xor_assoc, Nat.xor_self, Nat.xor_zero]
  rw [Cnd.eval, sext32, if_neg (by simp), Nat.zero_and, Nat.zero_xor, hbase]

/-- The names of the blocks of a procedure, in layout order. -/
def Fn.names (f : Fn S) : List Nat := f.blocks.map Prod.fst

/-- Name of the entry block (the `insert` pointer of line 89). -/
def Fn.entryName (f : Fn S) : Nat := f.names.headD 0

/-- Names of all blocks except the entry block. -/
def Fn.nonEntryNames (f : Fn S) : List Nat := f.names.drop 1

/-- An upper bound of the block names in use, for generating fresh
names for the blocks created by the pass. -/
def Fn.maxName (f : Fn S) : Nat := f.names.foldl max 0

/-- Fresh name for the `loopEntry` block created at line 126. -/
def loopEntryName (f : Fn S) : Nat := f.maxName + 1

/-- Fresh name for the `first` block created by `splitBasicBlock` at
line 106. -/
def splitName (f : Fn S) : Nat := f.maxName + 2

/-- Whether some block terminator is an `InvokeInst` (lines 73–75). -/
def Fn.hasInvokeB (f : Fn S) : Bool := f.blocks.any (fun p => p.2.term.isInvokeB)

/-- The split condition of lines 92–98: the entry terminator is a
conditional branch, or has more than one successor. -/
def doSplit (eblk : Blk S) : Bool :=
  eblk.term.isCondbrB || decide (1 < eblk.term.numSucc)

/-- The procedure layout right after the entry-splitting step of lines
99–107: when the split fires, the final one or two instructions of the
entry block (the terminator, plus the preceding instruction when the
block holds more than just its terminator, per `insert->size() > 1`)
move into a new block placed immediately after the entry block, and the
entry block falls through to it. -/
def splitLayout (f : Fn S) : List (Nat × Blk S) :=
  match f.blocks with
  | [] => []
  | (e, eb) :: rest =>
    if doSplit eb then
      (e, ⟨eb.ins.take (eb.ins.length - 1), .br (splitName f)⟩) ::
        (splitName f, ⟨eb.ins.drop (eb.ins.length - 1), eb.term⟩) :: rest
    else (e, eb) :: rest

/-- The blocks put into the dispatch (the `origBB` vector after lines
85 and 107): every block except the entry block, plus the split-off
block in front when the split fired. -/
def dispatched (f : Fn S) : List (Nat × Blk S) := (splitLayout f).drop 1

/-- The instructions that remain in the entry block after splitting. -/
def entryProIns (f : Fn S) : List (Ins S) :=
  match splitLayout f with
  | [] => []
  | (_, b) :: _ => b.ins

/-- The `bbIndex` vector of lines 110–113: one independently drawn
32-bit label per dispatched block. -/
def bbIndex (rand : Nat → Nat) (n : Nat) : List Nat :=
  (List.range n).map (fun i => rand i % UINT32)

/-- Position of the first occurrence of an element, or the length of
the list when absent (`std::distance(begin, std::find(...))`). -/
def idxOf : List Nat → Nat → Nat
  | [], _ => 0
  | x :: l, n => if x = n then 0 else idxOf l n + 1

/-- The value at a position of an association list, with a default. -/
def valAt {β : Type} (d : β) (l : List (Nat × β)) (b : Nat) : β :=
  match l[b]? with
  | none => d
  | some p => p.2

/-- Name of the dispatched block at position `b` of `origBB`. -/
def dispName (f : Fn S) (b : Nat) : Nat := ((dispatched f).map Prod.fst).getD b 0

/-- Body of the dispatched block at position `b` of `origBB`. -/
def dispBlk (f : Fn S) (b : Nat) : Blk S := valAt ⟨[], Tm.ret⟩ (dispatched f) b

/-- The 32-bit label assigned to the dispatched block at position `b`. -/
def labelAt (rand : Nat → Nat) (f : Fn S) (b : Nat) : Nat :=
  (bbIndex rand (dispatched f).length).getD b 0

/-- Whether the successor-rewriting loop body of lines 157–195 is
well-defined on dispatched block `b`: the two-successor case must be a
conditional `BranchInst` (the `assert` of line 175 and the
`cast<BranchInst>` of line 176), and every position used to read
`bbIndex` and `origBB` must be in bounds (`std::find` must succeed). -/
def rewriteOkB (bbSeq : List Nat) (f : Fn S) (b : Nat) : Bool :=
  let origNames := (dispatched f).map Prod.fst
  let n := (dispatched f).length
  match (dispatched f)[b]? with
  | none => false
  | some p =>
    match p.2.term with
    | .ret => true
    | .br t => decide (idxOf origNames t < n) && decide (idxOf bbSeq b < n)
    | .condbr _ tb fb => decide (idxOf origNames fb < n) && decide (idxOf origNames tb < n)
    | .switchLoaded cs d =>
        cs.isEmpty && decide (idxOf origNames d < n) && decide (idxOf bbSeq b < n)
    | .invoke _ _ => false

/-- The rewritten body of dispatched block `b` (lines 157–195): return
blocks are skipped; a single-successor terminator contributes the
branchless chain with the condition forced to `i1 0`, the false
successor looked up in `origBB` and the true position taken from the
position of `b` in the shuffled sequence (line 171); a conditional
branch contributes the chain over its own condition with both
successors looked up in `origBB`; the original terminator is replaced
by an unconditional branch to the loop header. -/
def rewriteTot (rand : Nat → Nat) (bbSeq : List Nat) (f : Fn S) (b : Nat) : Blk S :=
  let origNames := (dispatched f).map Prod.fst
  let bbIdx := bbIndex rand (dispatched f).length
  let blk := dispBlk f b
  match blk.term with
  | .ret => blk
  | .br t =>
      let sF := idxOf origNames t
      let sT := idxOf bbSeq b
      ⟨blk.ins ++ [.storeComputed .cfalse (bbIdx.getD sT 0 ^^^ bbIdx.getD sF 0)
        (bbIdx.getD b 0 ^^^ bbIdx.getD sF 0)], .br (loopEntryName f)⟩
  | .condbr c tb fb =>
      let sF := idxOf origNames fb
      let sT := idxOf origNames tb
      ⟨blk.ins ++ [.storeComputed (.cvar c) (bbIdx.getD sT 0 ^^^ bbIdx.getD sF 0)
        (bbIdx.getD b 0 ^^^ bbIdx.getD sF 0)], .br (loopEntryName f)⟩
  | .switchLoaded _ d =>
      let sF := idxOf origNames d
      let sT := idxOf bbSeq b
      ⟨blk.ins ++ [.storeComputed .cfalse (bbIdx.getD sT 0 ^^^ bbIdx.getD sF 0)
        (bbIdx.getD b 0 ^^^ bbIdx.getD sF 0)], .br (loopEntryName f)⟩
  | .invoke _ _ => blk

/-- The entry block after the transform (lines 116–132): its surviving
instructions, then the `AllocaInst` of the switch variable, the store
of `bbIndex[0]`, and an unconditional branch to the loop header. -/
def flatEntryBlk (rand : Nat → Nat) (f : Fn S) : Blk S :=
  ⟨entryProIns f ++ [.alloca, .storeConst (labelAt rand f 0)],
   .br (loopEntryName f)⟩

/-- The switch cases installed by the loop of lines 142–154, in
shuffled order: `bbIndex[b]` mapping to `origBB[b]`. -/
def fCases (rand : Nat → Nat) (bbSeq : List Nat) (f : Fn S) : List (Nat × Nat) :=
  bbSeq.map (fun b => (labelAt rand f b, dispName f b))

/-- The `loopEntry` block (lines 126–135): load of the switch variable
and the switch keyed on it, with itself as default target. -/
def loopBlk (rand : Nat → Nat) (bbSeq : List Nat) (f : Fn S) : Blk S :=
  ⟨[.loadSwitch], .switchLoaded (fCases rand bbSeq f) (loopEntryName f)⟩

/-- The block list of the transformed procedure: the entry block first
(line 131), the dispatched blocks in shuffled order (the `moveBefore`
of line 147), and the loop header last. -/
def flatBlocks (rand : Nat → Nat) (bbSeq : List Nat) (f : Fn S) : List (Nat × Blk S) :=
  (f.entryName, flatEntryBlk rand f) ::
    bbSeq.map (fun b => (dispName f b, rewriteTot rand bbSeq f b))
    ++ [(loopEntryName f, loopBlk rand bbSeq f)]

/-- Result of the transform: `rejected` models `return false` with the
procedure untouched, `fault` models an assertion failure or an
out-of-bounds vector read (undefined behavior in the C++), and `ok`
carries the rewritten procedure of a `return true` run. -/
inductive FlatRes (S : Type) where
  | rejected : FlatRes S
  | fault : FlatRes S
  | ok (F : Fn S) : FlatRes S

/-- The flattening transform, parameterized on the label stream and the
shuffled visiting order. -/
def flatten (rand : Nat → Nat) (bbSeq : List Nat) (f : Fn S) : FlatRes S :=
  if f.hasInvokeB then .rejected
  else if f.blocks.length ≤ 1 then .rejected
  else if bbSeq.all (rewriteOkB bbSeq f) then .ok ⟨flatBlocks rand bbSeq f⟩
  else .fault

/-- Extract the rewritten procedure of a successful run. -/
def FlatRes.getFn : FlatRes S → Fn S
  | .ok F => F
  | _ => ⟨[]⟩

/-- Whether an instruction is an original (pass-untouched) one. -/
def Ins.isOpB : Ins S → Bool
  | .op _ => true
  | _ => false

/-- Whether a terminator is one of the three plain input forms left by
the normalization pre-pass: return, unconditional or conditional
branch. -/
def Tm.isPlainB : Tm S → Bool
  | .ret => true
  | .br _ => true
  | .condbr _ _ _ => true
  | _ => false

/-- A block of the input procedure: original instructions only, plain
terminator. -/
def Blk.plainB (b : Blk S) : Bool := b.ins.all Ins.isOpB && b.term.isPlainB

/-- An input procedure as delivered by the host pipeline. -/
def Fn.plainB (f : Fn S) : Bool := f.blocks.all (fun p => p.2.plainB)

/-- Whether a terminator is one of the input variants of the data
model (return, branches, or the rejected unwind form). -/
def Tm.isSpecFormB : Tm S → Bool
  | .switchLoaded _ _ => false
  | _ => true

/-- All terminators are input variants of the data model. -/
def Fn.specFormB (f : Fn S) : Bool := f.blocks.all (fun p => p.2.term.isSpecFormB)

/-- Every branch target of every block is a non-entry block of the
procedure (the LLVM verifier guarantees that branch targets exist and
that the entry block has no predecessors). -/
def Fn.succClosedB (f : Fn S) : Bool :=
  f.blocks.all (fun p => p.2.term.branchSuccs.all (fun t => decide (t ∈ f.nonEntryNames)))

/-- Every branch successor of a dispatched block is itself dispatched. -/
def dispSuccClosedB (f : Fn S) : Bool :=
  (dispatched f).all (fun p =>
    p.2.term.branchSuccs.all (fun t => decide (t ∈ (dispatched f).map Prod.fst)))

/-- The entry terminator transfers control to where the transform will
dispatch first: either it is a conditional branch (so the split block
becomes the first dispatched block), or it is an unconditional branch
to the block laid out directly after the entry block. -/
def entryTermOkB (f : Fn S) : Tm S → Bool
  | .br t => decide (t = f.nonEntryNames.headD 0)
  | .condbr _ _ _ => true
  | _ => false

def entryOkB (f : Fn S) : Bool :=
  match f.blocks with
  | [] => false
  | (_, eb) :: _ => entryTermOkB f eb.term

/-- Unfolding lemma for `assoc` on a cons cell. -/
theorem assoc_cons {β : Type} (k : Nat) (v : β) (l : List (Nat × β)) (n : Nat) :
    assoc ((k, v) :: l) n = if k = n then some v else assoc l n := rfl

/-- An `assoc` lookup skips a prefix none of whose keys match. -/
theorem assoc_append_right {β : Type} (l1 l2 : List (Nat × β)) (n : Nat)
    (h : ∀ p ∈ l1, p.1 ≠ n) : assoc (l1 ++ l2) n = assoc l2 n := by
  induction l1 with
  | nil => rfl
  | cons p l ih =>
    cases p with
    | mk k v =>
      rw [List.cons_append, assoc_cons, if_neg (h _ (List.mem_cons_self _ _)), ih]
      exact fun q hq => h q (List.mem_cons_of_mem _ hq)

/-- An `assoc` lookup over a mapped sequence finds the image of `j` when
the key function is injective over the sequence. -/
theorem assoc_map_eq {β : Type} (sq : List Nat) (key : Nat → Nat) (val : Nat → β) (j : Nat)
    (hj : j ∈ sq) (hinj : ∀ b ∈ sq, key b = key j → b = j) :
    assoc (sq.map (fun b => (key b, val b))) (key j) = some (val j) := by
  induction sq with
  | nil => cases hj
  | cons a l ih =>
    rw [List.map_cons, assoc_cons]
    by_cases hk : key a = key j
    · have ha : a = j := hinj a (List.mem_cons_self _ _) hk
      subst ha
      rw [if_pos rfl]
    · rw [if_neg hk]
      apply ih
      · rcases List.mem_cons.mp hj with h | h
        · exact absurd (by rw [h]) hk
        · exact h
      · exact fun b hb => hinj b (List.mem_cons_of_mem _ hb)

/-- A found element has its index inside the list. -/
theorem idxOf_lt_length (l : List Nat) (n : Nat) (h : n ∈ l) : idxOf l n < l.length := by
  induction l with
  | nil => cases h
  | cons x l ih =>
    rw [idxOf]
    by_cases hx : x = n
    · rw [if_pos hx]
      exact Nat.succ_pos _
    · rw [if_neg hx]
      have hn : n ∈ l := by
        rcases List.mem_cons.mp h with h1 | h1
        · exact absurd h1.symm hx
        · exact h1
      exact Nat.succ_lt_succ (ih hn)

/-- Reading back the element at the found index. -/
theorem getD_idxOf (l : List Nat) (n : Nat) (h : n ∈ l) : l.getD (idxOf l n) 0 = n := by
  induction l with
  | nil => cases h
  | cons x l ih =>
    rw [idxOf]
    by_cases hx : x = n
    · rw [if_pos hx]
      exact hx
    · rw [if_neg hx, List.getD_cons_succ]
      apply ih
      rcases List.mem_cons.mp h with h1 | h1
      · exact absurd h1.symm hx
      · exact h1

/-- On a duplicate-free list, looking up the element at position `j`
finds exactly position `j`. -/
theorem idxOf_getD (l : List Nat) (j : Nat) (hnd : l.Nodup) (hj : j < l.length) :
    idxOf l (l.getD j 0) = j := by
  induction l generalizing j with
  | nil => exact absurd hj (Nat.not_lt_zero _)
  | cons x l ih =>
    rcases List.nodup_cons.mp hnd with ⟨hx, hl⟩
    cases j with
    | zero => simp [idxOf]
    | succ j =>
      rw [List.getD_cons_succ, idxOf]
      have hj' : j < l.length := Nat.lt_of_succ_lt_succ hj
      have hmem : l.getD j 0 ∈ l := by
        rw [List.getD_eq_getElem l 0 hj']
        exact List.getElem_mem hj'
      have hne : x ≠ l.getD j 0 := fun he => hx (by rw [he]; exact hmem)
      rw [if_neg hne, ih j hl hj']

/-- The seed is below the fold of `max`. -/
theorem init_le_foldl_max (l : List Nat) (a : Nat) : a ≤ l.foldl max a := by
  induction l generalizing a with
  | nil => exact Nat.le_refl a
  | cons x l ih => exact Nat.le_trans (Nat.le_max_left a x) (ih (max a x))

/-- Every member is below the fold of `max`. -/
theorem mem_le_foldl_max (l : List Nat) : ∀ (a x : Nat), x ∈ l → x ≤ l.foldl max a := by
  induction l with
  | nil =>
    intro a x h
    cases h
  | cons y l ih =>
    intro a x h
    rw [List.foldl_cons]
    rcases List.mem_cons.mp h with h1 | h1
    · rw [h1]
      exact Nat.le_trans (Nat.le_max_right a y) (init_le_foldl_max l (max a y))
    · exact ih (max a y) x h1

/-- Every block name is bounded by `maxName`. -/
theorem name_le_maxName (f : Fn S) (x : Nat) (h : x ∈ f.names) : x ≤ f.maxName :=
  mem_le_foldl_max _ 0 x h

/-- The loop header name is fresh. -/
theorem loopEntryName_not_mem (f : Fn S) : loopEntryName f ∉ f.names := fun h =>
  Nat.not_succ_le_self f.maxName (name_le_maxName f _ h)

/-- The split block name is fresh. -/
theorem splitName_not_mem (f : Fn S) : splitName f ∉ f.names := fun h => by
  have hle := name_le_maxName f _ h
  rw [splitName] at hle
  omega

/-- The two fresh names differ. -/
theorem loopEntryName_ne_splitName (f : Fn S) : loopEntryName f ≠ splitName f := by
  simp [loopEntryName, splitName]

/-- Layout after splitting, when the split fires. -/
theorem splitLayout_split (f : Fn S) (e : Nat) (eb : Blk S) (rest : List (Nat × Blk S))
    (hf : f.blocks = (e, eb) :: rest) (hd : doSplit eb = true) :
    splitLayout f = (e, ⟨eb.ins.take (eb.ins.length - 1), .br (splitName f)⟩) ::
      (splitName f, ⟨eb.ins.drop (eb.ins.length - 1), eb.term⟩) :: rest := by
  rw [splitLayout, hf]
  simp [hd]

/-- Layout after splitting, when the split does not fire. -/
theorem splitLayout_nosplit (f : Fn S) (e : Nat) (eb : Blk S) (rest : List (Nat × Blk S))
    (hf : f.blocks = (e, eb) :: rest) (hd : doSplit eb = false) :
    splitLayout f = (e, eb) :: rest := by
  rw [splitLayout, hf]
  simp [hd]

/-- Running an instruction list distributes over append. -/
theorem runIns_append (l1 l2 : List (Ins S)) (st : St S) :
    runIns (l1 ++ l2) st = runIns l2 (runIns l1 st) := by
  simp [runIns, List.foldl_append]

/-- Running a cons cell. -/
theorem runIns_cons (i : Ins S) (l : List (Ins S)) (st : St S) :
    runIns (i :: l) st = runIns l (i.run st) := rfl

/-- The effect of an original straight-line body on the program state
alone. -/
def opsApply (l : List (Ins S)) (s : S) : S :=
  l.foldl (fun s i => match i with | .op g => g s | _ => s) s

/-- Unfolding lemma for `opsApply` on `op`. -/
theorem opsApply_cons_op (g : S → S) (l : List (Ins S)) (s : S) :
    opsApply (.op g :: l) s = opsApply l (g s) := rfl

/-- A body of original instructions only changes the program state and
leaves the switch cell and the loaded value alone. -/
theorem runIns_ops (l : List (Ins S)) (st : St S) (h : l.all Ins.isOpB = true) :
    runIns l st = ⟨opsApply l st.s, st.mem, st.loaded⟩ := by
  induction l generalizing st with
  | nil =>
    cases st
    rfl
  | cons i l ih =>
    rw [List.all_cons, Bool.and_eq_true] at h
    cases i with
    | op g => exact (runIns_cons _ _ _).trans (ih ⟨g st.s, st.mem, st.loaded⟩ h.2)
    | alloca => exact absurd h.1 (by simp [Ins.isOpB])
    | storeConst v => exact absurd h.1 (by simp [Ins.isOpB])
    | loadSwitch => exact absurd h.1 (by simp [Ins.isOpB])
    | storeComputed c k1 k2 => exact absurd h.1 (by simp [Ins.isOpB])

/-- One-step unfolding of the interpreter. -/
theorem exec_succ (f : Fn S) (k b : Nat) (st : St S) :
    exec f (k + 1) b st =
      match assoc f.blocks b with
      | none => none
      | some blk =>
        match Tm.next blk.term (runIns blk.ins st) with
        | none => none
        | some none => some (runIns blk.ins st)
        | some (some nxt) => exec f k nxt (runIns blk.ins st) := rfl

/-- A step that transfers control. -/
theorem exec_step (f : Fn S) (k b : Nat) (st : St S) (blk : Blk S) (nxt : Nat)
    (hb : assoc f.blocks b = some blk)
    (hn : Tm.next blk.term (runIns blk.ins st) = some (some nxt)) :
    exec f (k + 1) b st = exec f k nxt (runIns blk.ins st) := by
  rw [exec_succ, hb]
  simp only [hn]

/-- A step that returns. -/
theorem exec_ret (f : Fn S) (k b : Nat) (st : St S) (blk : Blk S)
    (hb : assoc f.blocks b = some blk)
    (hn : Tm.next blk.term (runIns blk.ins st) = some none) :
    exec f (k + 1) b st = some (runIns blk.ins st) := by
  rw [exec_succ, hb]
  simp only [hn]

/-- The element at an in-bounds position is a member. -/
theorem getD_mem (l : List Nat) (j d : Nat) (hj : j < l.length) : l.getD j d ∈ l := by
  rw [List.getD_eq_getElem l d hj]
  exact List.getElem_mem hj

/-- An `assoc` lookup that succeeds on a prefix succeeds on the whole
list. -/
theorem assoc_append_left {β : Type} (l1 l2 : List (Nat × β)) (n : Nat) (v : β)
    (h : assoc l1 n = some v) : assoc (l1 ++ l2) n = some v := by
  induction l1 with
  | nil => exact absurd h (by simp [assoc])
  | cons p l ih =>
    cases p with
    | mk k w =>
      rw [List.cons_append, assoc_cons]
      rw [assoc_cons] at h
      by_cases hk : k = n
      · rw [if_pos hk] at h ⊢
        exact h
      · rw [if_neg hk] at h ⊢
        exact ih h

/-- Unfolding lemmas for `valAt`. -/
theorem valAt_cons_zero {β : Type} (d : β) (p : Nat × β) (l : List (Nat × β)) :
    valAt d (p :: l) 0 = p.2 := by
  simp [valAt]

/-- Stepping `valAt` past the head. -/
theorem valAt_cons_succ {β : Type} (d : β) (p : Nat × β) (l : List (Nat × β)) (b : Nat) :
    valAt d (p :: l) (b + 1) = valAt d l b := by
  simp [valAt]

/-- On an association list with duplicate-free keys, `assoc` returns
the value stored at the position of the key. -/
theorem assoc_of_mem_nodup {β : Type} (d : β) (l : List (Nat × β)) (nm : Nat)
    (hnd : (l.map Prod.fst).Nodup) (hm : nm ∈ l.map Prod.fst) :
    assoc l nm = some (valAt d l (idxOf (l.map Prod.fst) nm)) := by
  induction l with
  | nil => cases hm
  | cons p l ih =>
    cases p with
    | mk k w =>
      rw [List.map_cons] at hnd hm
      rcases List.nodup_cons.mp hnd with ⟨hp, hl⟩
      simp only [List.map_cons, assoc_cons, idxOf]
      by_cases hk : k = nm
      · subst hk
        rw [if_pos rfl, if_pos rfl, valAt_cons_zero]
      · rw [if_neg hk, if_neg hk, valAt_cons_succ]
        apply ih hl
        rcases List.mem_cons.mp hm with h1 | h1
        · exact absurd h1.symm hk
        · exact h1

/-- Length of the label vector. -/
theorem bbIndex_length (rand : Nat → Nat) (n : Nat) : (bbIndex rand n).length = n := by
  simp [bbIndex]

/-- The label vector holds the reduced draws. -/
theorem bbIndex_getD (rand : Nat → Nat) (n j : Nat) (hj : j < n) :
    (bbIndex rand n).getD j 0 = rand j % UINT32 := by
  have hl : j < (bbIndex rand n).length := by rw [bbIndex_length]; exact hj
  rw [List.getD_eq_getElem _ 0 hl]
  simp [bbIndex]

/-- Every label is a 32-bit value. -/
theorem labelAt_lt (rand : Nat → Nat) (f : Fn S) (j : Nat) : labelAt rand f j < UINT32 := by
  by_cases hj : j < (dispatched f).length
  · rw [labelAt, bbIndex_getD rand _ j hj]
    exact Nat.mod_lt _ (by rw [UINT32]; positivity)
  · rw [labelAt, List.getD_eq_default]
    · rw [UINT32]
      positivity
    · rw [bbIndex_length]
      omega

/-- The hypotheses under which the transform is proved to preserve
behavior: a well-formed plain input procedure with at least two blocks,
whose entry transfers control to where the rewritten entry will point,
pairwise distinct drawn labels, and a shuffled order that is a
permutation of the block positions. -/
structure FlatCtx (rand : Nat → Nat) (bbSeq : List Nat) (f : Fn S) : Prop where
  hnd : f.names.Nodup
  hplain : f.plainB = true
  hsucc : f.succClosedB = true
  hentry : entryOkB f = true
  hlab : (bbIndex rand (dispatched f).length).Nodup
  hseq : bbSeq.Perm (List.range (dispatched f).length)
  hlen : 2 ≤ f.blocks.length

/-- A two-block procedure has a nonempty tail. -/
theorem rest_ne_nil (f : Fn S) (e : Nat) (eb : Blk S) (rest : List (Nat × Blk S))
    (hf : f.blocks = (e, eb) :: rest) (hlen : 2 ≤ f.blocks.length) : rest ≠ [] := by
  intro h
  rw [hf, h] at hlen
  simp at hlen

/-- The entry name is the head name. -/
theorem entryName_eq (f : Fn S) (e : Nat) (eb : Blk S) (rest : List (Nat × Blk S))
    (hf : f.blocks = (e, eb) :: rest) : f.entryName = e := by
  simp [Fn.entryName, Fn.names, hf]

/-- The names of a destructured procedure. -/
theorem names_eq (f : Fn S) (e : Nat) (eb : Blk S) (rest : List (Nat × Blk S))
    (hf : f.blocks = (e, eb) :: rest) : f.names = e :: rest.map Prod.fst := by
  simp [Fn.names, hf]

/-- The non-entry names of a destructured procedure. -/
theorem nonEntryNames_eq (f : Fn S) (e : Nat) (eb : Blk S) (rest : List (Nat × Blk S))
    (hf : f.blocks = (e, eb) :: rest) : f.nonEntryNames = rest.map Prod.fst := by
  simp [Fn.nonEntryNames, Fn.names, hf]

/-- Extract per-block plainness from the procedure-level check. -/
theorem plain_block (f : Fn S) (hp : f.plainB = true) (p : Nat × Blk S) (hm : p ∈ f.blocks) :
    p.2.ins.all Ins.isOpB = true ∧ p.2.term.isPlainB = true := by
  rw [Fn.plainB, List.all_eq_true] at hp
  have h := hp p hm
  rw [Blk.plainB, Bool.and_eq_true] at h
  exact h

/-- Extract branch-target closure from the procedure-level check. -/
theorem succ_closed (f : Fn S) (hs : f.succClosedB = true) (p : Nat × Blk S)
    (hm : p ∈ f.blocks) (t : Nat) (ht : t ∈ p.2.term.branchSuccs) : t ∈ f.nonEntryNames := by
  rw [Fn.succClosedB, List.all_eq_true] at hs
  have h := hs p hm
  rw [List.all_eq_true] at h
  exact of_decide_eq_true (h t ht)

/-- For a plain terminator the split condition is exactly being a
conditional branch. -/
theorem doSplit_plain (eb : Blk S) (hp : eb.term.isPlainB = true) :
    doSplit eb = eb.term.isCondbrB := by
  cases h : eb.term with
  | ret => simp [doSplit, Tm.isCondbrB, Tm.numSucc, h]
  | br t => simp [doSplit, Tm.isCondbrB, Tm.numSucc, h]
  | condbr c tb fb => simp [doSplit, Tm.isCondbrB, h]
  | switchLoaded cs d => rw [h] at hp; exact absurd hp (by simp [Tm.isPlainB])
  | invoke n u => rw [h] at hp; exact absurd hp (by simp [Tm.isPlainB])

/-- The two shapes of the dispatched list. -/
theorem dispatched_cases (f : Fn S) (e : Nat) (eb : Blk S) (rest : List (Nat × Blk S))
    (hf : f.blocks = (e, eb) :: rest) :
    (doSplit eb = true ∧ dispatched f =
      (splitName f, ⟨eb.ins.drop (eb.ins.length - 1), eb.term⟩) :: rest) ∨
    (doSplit eb = false ∧ dispatched f = rest) := by
  by_cases hd : doSplit eb = true
  · exact Or.inl ⟨hd, by rw [dispatched, splitLayout_split f e eb rest hf hd]; rfl⟩
  · have hd2 : doSplit eb = false := by simpa using hd
    exact Or.inr ⟨hd2, by rw [dispatched, splitLayout_nosplit f e eb rest hf hd2]; rfl⟩

/-- A non-entry name is a procedure name. -/
theorem rest_mem_names (f : Fn S) (e : Nat) (eb : Blk S) (rest : List (Nat × Blk S))
    (hf : f.blocks = (e, eb) :: rest) (x : Nat) (hx : x ∈ rest.map Prod.fst) : x ∈ f.names := by
  rw [names_eq f e eb rest hf]
  exact List.mem_cons_of_mem _ hx

/-- Each dispatched name is either the split name or a non-entry name. -/
theorem dispName_mem_cases (f : Fn S) (e : Nat) (eb : Blk S) (rest : List (Nat × Blk S))
    (hf : f.blocks = (e, eb) :: rest) (x : Nat) (hx : x ∈ (dispatched f).map Prod.fst) :
    x = splitName f ∨ x ∈ rest.map Prod.fst := by
  rcases dispatched_cases f e eb rest hf with ⟨hd, hD⟩ | ⟨hd, hD⟩
  · rw [hD, List.map_cons] at hx
    rcases List.mem_cons.mp hx with h1 | h1
    · exact Or.inl h1
    · exact Or.inr h1
  · rw [hD] at hx
    exact Or.inr hx

/-- Duplicate-freedom of the dispatched names. -/
theorem dispNames_nodup (f : Fn S) (e : Nat) (eb : Blk S) (rest : List (Nat × Blk S))
    (hf : f.blocks = (e, eb) :: rest) (hnd : f.names.Nodup) :
    ((dispatched f).map Prod.fst).Nodup := by
  have hcons : (e :: rest.map Prod.fst).Nodup := by
    rw [← names_eq f e eb rest hf]
    exact hnd
  have hrest : (rest.map Prod.fst).Nodup := (List.nodup_cons.mp hcons).2
  rcases dispatched_cases f e eb rest hf with ⟨hd, hD⟩ | ⟨hd, hD⟩
  · rw [hD, List.map_cons]
    apply List.nodup_cons.mpr
    refine ⟨fun hmem => ?_, hrest⟩
    exact splitName_not_mem f (rest_mem_names f e eb rest hf _ hmem)
  · rw [hD]
    exact hrest

/-- The entry name is not dispatched. -/
theorem entry_not_dispName (f : Fn S) (e : Nat) (eb : Blk S) (rest : List (Nat × Blk S))
    (hf : f.blocks = (e, eb) :: rest) (hnd : f.names.Nodup) :
    e ∉ (dispatched f).map Prod.fst := by
  intro hx
  rcases dispName_mem_cases f e eb rest hf e hx with h1 | h1
  · exact splitName_not_mem f (h1 ▸ (by rw [names_eq f e eb rest hf]; exact List.mem_cons_self _ _))
  · have hcons : (e :: rest.map Prod.fst).Nodup := by
      rw [← names_eq f e eb rest hf]
      exact hnd
    exact (List.nodup_cons.mp hcons).1 h1

/-- The loop header name is not dispatched. -/
theorem lname_not_dispName (f : Fn S) (e : Nat) (eb : Blk S) (rest : List (Nat × Blk S))
    (hf : f.blocks = (e, eb) :: rest) :
    loopEntryName f ∉ (dispatched f).map Prod.fst := by
  intro hx
  rcases dispName_mem_cases f e eb rest hf _ hx with h1 | h1
  · exact loopEntryName_ne_splitName f h1
  · exact loopEntryName_not_mem f (rest_mem_names f e eb rest hf _ h1)

/-- At least one block is dispatched. -/
theorem disp_len_pos (f : Fn S) (e : Nat) (eb : Blk S) (rest : List (Nat × Blk S))
    (hf : f.blocks = (e, eb) :: rest) (hlen : 2 ≤ f.blocks.length) :
    0 < (dispatched f).length := by
  have hne := rest_ne_nil f e eb rest hf hlen
  rcases dispatched_cases f e eb rest hf with ⟨hd, hD⟩ | ⟨hd, hD⟩
  · rw [hD]
    simp
  · rw [hD]
    exact List.length_pos.mpr hne

/-- Members of the shuffled sequence are positions. -/
theorem seq_mem_lt (bbSeq : List Nat) (n : Nat) (hseq : bbSeq.Perm (List.range n))
    (b : Nat) (hb : b ∈ bbSeq) : b < n :=
  List.mem_range.mp (hseq.mem_iff.mp hb)

/-- Every position occurs in the shuffled sequence. -/
theorem lt_mem_seq (bbSeq : List Nat) (n : Nat) (hseq : bbSeq.Perm (List.range n))
    (j : Nat) (hj : j < n) : j ∈ bbSeq :=
  hseq.mem_iff.mpr (List.mem_range.mpr hj)

/-- The shuffled sequence has one entry per position. -/
theorem seq_length (bbSeq : List Nat) (n : Nat) (hseq : bbSeq.Perm (List.range n)) :
    bbSeq.length = n :=
  hseq.length_eq.trans (List.length_range n)

/-- Distinct positions receive distinct labels when the draws are
duplicate-free. -/
theorem labelAt_inj (rand : Nat → Nat) (f : Fn S)
    (hlab : (bbIndex rand (dispatched f).length).Nodup)
    (i j : Nat) (hi : i < (dispatched f).length) (hj : j < (dispatched f).length)
    (h : labelAt rand f i = labelAt rand f j) : i = j := by
  have hlen := bbIndex_length rand (dispatched f).length
  have h1 := idxOf_getD (bbIndex rand (dispatched f).length) i hlab (by omega)
  have h2 := idxOf_getD (bbIndex rand (dispatched f).length) j hlab (by omega)
  rw [labelAt, labelAt] at h
  rw [← h1, h]
  exact h2

/-- Distinct positions carry distinct dispatched names. -/
theorem dispName_inj (f : Fn S) (hndd : ((dispatched f).map Prod.fst).Nodup)
    (i j : Nat) (hi : i < (dispatched f).length) (hj : j < (dispatched f).length)
    (h : dispName f i = dispName f j) : i = j := by
  have hlen : ((dispatched f).map Prod.fst).length = (dispatched f).length := List.length_map _ _
  have h1 := idxOf_getD ((dispatched f).map Prod.fst) i hndd (by omega)
  have h2 := idxOf_getD ((dispatched f).map Prod.fst) j hndd (by omega)
  rw [dispName, dispName] at h
  rw [← h1, h]
  exact h2

/-- Non-entry names are dispatched names. -/
theorem rest_sub_dispNames (f : Fn S) (e : Nat) (eb : Blk S) (rest : List (Nat × Blk S))
    (hf : f.blocks = (e, eb) :: rest) (t : Nat) (ht : t ∈ rest.map Prod.fst) :
    t ∈ (dispatched f).map Prod.fst := by
  rcases dispatched_cases f e eb rest hf with ⟨hd, hD⟩ | ⟨hd, hD⟩
  · rw [hD, List.map_cons]
    exact List.mem_cons_of_mem _ ht
  · rw [hD]
    exact ht

/-- Dispatched blocks are plain blocks of a plain procedure. -/
theorem disp_mem_plain (f : Fn S) (e : Nat) (eb : Blk S) (rest : List (Nat × Blk S))
    (hf : f.blocks = (e, eb) :: rest) (hp : f.plainB = true) (p : Nat × Blk S)
    (hm : p ∈ dispatched f) :
    p.2.ins.all Ins.isOpB = true ∧ p.2.term.isPlainB = true := by
  have hentry : (e, eb) ∈ f.blocks := by
    rw [hf]
    exact List.mem_cons_self _ _
  rcases dispatched_cases f e eb rest hf with ⟨hd, hD⟩ | ⟨hd, hD⟩
  · rw [hD] at hm
    rcases List.mem_cons.mp hm with h1 | h1
    · have hb := plain_block f hp (e, eb) hentry
      rw [h1]
      constructor
      · rw [List.all_eq_true]
        intro i hi
        have hi2 : i ∈ eb.ins := List.drop_subset _ _ hi
        exact List.all_eq_true.mp hb.1 i hi2
      · exact hb.2
    · exact plain_block f hp p (by rw [hf]; exact List.mem_cons_of_mem _ h1)
  · rw [hD] at hm
    exact plain_block f hp p (by rw [hf]; exact List.mem_cons_of_mem _ hm)

/-- Branch successors of dispatched blocks are non-entry names. -/
theorem disp_succ_rest (f : Fn S) (e : Nat) (eb : Blk S) (rest : List (Nat × Blk S))
    (hf : f.blocks = (e, eb) :: rest) (hs : f.succClosedB = true) (p : Nat × Blk S)
    (hm : p ∈ dispatched f) (t : Nat) (ht : t ∈ p.2.term.branchSuccs) :
    t ∈ rest.map Prod.fst := by
  have hentry : (e, eb) ∈ f.blocks := by
    rw [hf]
    exact List.mem_cons_self _ _
  rw [← nonEntryNames_eq f e eb rest hf]
  rcases dispatched_cases f e eb rest hf with ⟨hd, hD⟩ | ⟨hd, hD⟩
  · rw [hD] at hm
    rcases List.mem_cons.mp hm with h1 | h1
    · apply succ_closed f hs (e, eb) hentry t
      rw [h1] at ht
      exact ht
    · exact succ_closed f hs p (by rw [hf]; exact List.mem_cons_of_mem _ h1) t ht
  · rw [hD] at hm
    exact succ_closed f hs p (by rw [hf]; exact List.mem_cons_of_mem _ hm) t ht

/-- A plain procedure passes the unwind check. -/
theorem hasInvokeB_false_of_plain (f : Fn S) (hp : f.plainB = true) :
    f.hasInvokeB = false := by
  rw [Fn.hasInvokeB, List.any_eq_false]
  intro p hm
  have hpl := (plain_block f hp p hm).2
  cases h : p.2.term with
  | ret => simp [Tm.isInvokeB]
  | br t => simp [Tm.isInvokeB]
  | condbr c tb fb => simp [Tm.isInvokeB]
  | switchLoaded cs d => simp [Tm.isInvokeB]
  | invoke n u =>
    rw [h] at hpl
    exact absurd hpl (by simp [Tm.isPlainB])

/-- The dispatched name at an in-bounds position is a dispatched name. -/
theorem dispName_mem (f : Fn S) (j : Nat) (hj : j < (dispatched f).length) :
    dispName f j ∈ (dispatched f).map Prod.fst := by
  rw [dispName]
  exact getD_mem _ j 0 (by rw [List.length_map]; exact hj)

/-- Under the context hypotheses every shuffled position passes the
rewrite checks. -/
theorem rewriteOk_of_ctx (rand : Nat → Nat) (bbSeq : List Nat) (f : Fn S)
    (e : Nat) (eb : Blk S) (rest : List (Nat × Blk S))
    (hf : f.blocks = (e, eb) :: rest) (hc : FlatCtx rand bbSeq f)
    (b : Nat) (hb : b ∈ bbSeq) : rewriteOkB bbSeq f b = true := by
  have hbn : b < (dispatched f).length := seq_mem_lt bbSeq _ hc.hseq b hb
  have hget : (dispatched f)[b]? = some ((dispatched f).get ⟨b, hbn⟩) := by
    rw [List.getElem?_eq_getElem hbn]
    rfl
  have hmem : (dispatched f).get ⟨b, hbn⟩ ∈ dispatched f := List.get_mem _ _ _
  have hplainb := disp_mem_plain f e eb rest hf hc.hplain _ hmem
  have hsucct := disp_succ_rest f e eb rest hf hc.hsucc _ hmem
  have hmaplen : ((dispatched f).map Prod.fst).length = (dispatched f).length :=
    List.length_map _ _
  have hseqlen : bbSeq.length = (dispatched f).length := seq_length bbSeq _ hc.hseq
  have hidxb : idxOf bbSeq b < (dispatched f).length := by
    rw [← hseqlen]
    exact idxOf_lt_length bbSeq b hb
  rw [rewriteOkB]
  simp only [hget]
  cases ht : ((dispatched f).get ⟨b, hbn⟩).2.term with
  | ret => simp
  | br t =>
    have htr : t ∈ rest.map Prod.fst := hsucct t (by rw [ht]; simp [Tm.branchSuccs])
    have htd := rest_sub_dispNames f e eb rest hf t htr
    have h1 : idxOf ((dispatched f).map Prod.fst) t < (dispatched f).length := by
      rw [← hmaplen]
      exact idxOf_lt_length _ t htd
    simp [h1, hidxb]
  | condbr c tb fb =>
    have htb : tb ∈ rest.map Prod.fst := hsucct tb (by rw [ht]; simp [Tm.branchSuccs])
    have hfb : fb ∈ rest.map Prod.fst := hsucct fb (by rw [ht]; simp [Tm.branchSuccs])
    have h1 : idxOf ((dispatched f).map Prod.fst) tb < (dispatched f).length := by
      rw [← hmaplen]
      exact idxOf_lt_length _ tb (rest_sub_dispNames f e eb rest hf tb htb)
    have h2 : idxOf ((dispatched f).map Prod.fst) fb < (dispatched f).length := by
      rw [← hmaplen]
      exact idxOf_lt_length _ fb (rest_sub_dispNames f e eb rest hf fb hfb)
    simp [h1, h2]
  | switchLoaded cs d =>
    rw [ht] at hplainb
    exact absurd hplainb.2 (by simp [Tm.isPlainB])
  | invoke n u =>
    rw [ht] at hplainb
    exact absurd hplainb.2 (by simp [Tm.isPlainB])

/-- Under the context hypotheses the transform succeeds and produces
exactly the block list `flatBlocks`. -/
theorem flatten_ok_of_ctx (rand : Nat → Nat) (bbSeq : List Nat) (f : Fn S)
    (e : Nat) (eb : Blk S) (rest : List (Nat × Blk S))
    (hf : f.blocks = (e, eb) :: rest) (hc : FlatCtx rand bbSeq f) :
    flatten rand bbSeq f = .ok ⟨flatBlocks rand bbSeq f⟩ := by
  have hlen2 : ¬ (f.blocks.length ≤ 1) := by
    have h2 := hc.hlen
    omega
  have hall : bbSeq.all (rewriteOkB bbSeq f) = true := by
    rw [List.all_eq_true]
    intro b hb
    exact rewriteOk_of_ctx rand bbSeq f e eb rest hf hc b hb
  rw [flatten, hasInvokeB_false_of_plain f hc.hplain, if_neg (by simp),
    if_neg hlen2, if_pos hall]

/-- The dispatched block at an in-bounds position. -/
theorem dispBlk_eq_get (f : Fn S) (b : Nat) (hb : b < (dispatched f).length) :
    dispBlk f b = ((dispatched f).get ⟨b, hb⟩).2 := by
  simp only [dispBlk, valAt, List.getElem?_eq_getElem hb]
  rfl

/-- The dispatched name at an in-bounds position. -/
theorem dispName_eq_get (f : Fn S) (b : Nat) (hb : b < (dispatched f).length) :
    dispName f b = ((dispatched f).get ⟨b, hb⟩).1 := by
  rw [dispName, List.getD_eq_getElem _ 0 (by rw [List.length_map]; exact hb)]
  simp

/-- The dispatched pair at an in-bounds position is a member. -/
theorem disp_pair_mem (f : Fn S) (b : Nat) (hb : b < (dispatched f).length) :
    (dispName f b, dispBlk f b) ∈ dispatched f := by
  rw [dispName_eq_get f b hb, dispBlk_eq_get f b hb]
  exact List.get_mem _ _ _

/-- Block lookup in the rewritten procedure: entry. -/
theorem assoc_flat_entry (rand : Nat → Nat) (bbSeq : List Nat) (f : Fn S)
    (e : Nat) (eb : Blk S) (rest : List (Nat × Blk S)) (hf : f.blocks = (e, eb) :: rest) :
    assoc (flatBlocks rand bbSeq f) e = some (flatEntryBlk rand f) := by
  rw [flatBlocks, entryName_eq f e eb rest hf, List.cons_append, assoc_cons, if_pos rfl]

/-- Block lookup in the rewritten procedure: loop header. -/
theorem assoc_flat_loop (rand : Nat → Nat) (bbSeq : List Nat) (f : Fn S)
    (e : Nat) (eb : Blk S) (rest : List (Nat × Blk S)) (hf : f.blocks = (e, eb) :: rest)
    (hseq : bbSeq.Perm (List.range (dispatched f).length)) :
    assoc (flatBlocks rand bbSeq f) (loopEntryName f) = some (loopBlk rand bbSeq f) := by
  have hlne : e ≠ loopEntryName f := by
    intro h
    apply loopEntryName_not_mem f
    rw [← h, names_eq f e eb rest hf]
    exact List.mem_cons_self _ _
  rw [flatBlocks, entryName_eq f e eb rest hf, List.cons_append, assoc_cons, if_neg hlne]
  rw [assoc_append_right]
  · rw [assoc_cons, if_pos rfl]
  · intro p hp
    rw [List.mem_map] at hp
    rcases hp with ⟨b, hb, hpe⟩
    have hp1 : p.1 = dispName f b := by rw [← hpe]
    rw [hp1]
    intro hcontra
    exact lname_not_dispName f e eb rest hf
      (hcontra ▸ dispName_mem f b (seq_mem_lt bbSeq _ hseq b hb))

/-- Block lookup in the rewritten procedure: dispatched block at
position `j`. -/
theorem assoc_flat_disp (rand : Nat → Nat) (bbSeq : List Nat) (f : Fn S)
    (e : Nat) (eb : Blk S) (rest : List (Nat × Blk S)) (hf : f.blocks = (e, eb) :: rest)
    (hnd : f.names.Nodup) (hseq : bbSeq.Perm (List.range (dispatched f).length))
    (j : Nat) (hj : j < (dispatched f).length) :
    assoc (flatBlocks rand bbSeq f) (dispName f j) = some (rewriteTot rand bbSeq f j) := by
  have hndd := dispNames_nodup f e eb rest hf hnd
  have hne : e ≠ dispName f j := by
    intro h
    exact entry_not_dispName f e eb rest hf hnd (h ▸ dispName_mem f j hj)
  rw [flatBlocks, entryName_eq f e eb rest hf, List.cons_append, assoc_cons, if_neg hne]
  apply assoc_append_left
  exact assoc_map_eq bbSeq (dispName f) (rewriteTot rand bbSeq f) j
    (lt_mem_seq bbSeq _ hseq j hj)
    (fun b hb h => dispName_inj f hndd b j (seq_mem_lt bbSeq _ hseq b hb) hj h)

/-- Case lookup in the dispatch switch: the label of position `j`
selects the name of position `j`. -/
theorem assoc_fCases (rand : Nat → Nat) (bbSeq : List Nat) (f : Fn S)
    (hlab : (bbIndex rand (dispatched f).length).Nodup)
    (hseq : bbSeq.Perm (List.range (dispatched f).length))
    (j : Nat) (hj : j < (dispatched f).length) :
    assoc (fCases rand bbSeq f) (labelAt rand f j) = some (dispName f j) := by
  rw [fCases]
  exact assoc_map_eq bbSeq (labelAt rand f) (dispName f) j
    (lt_mem_seq bbSeq _ hseq j hj)
    (fun b hb h => labelAt_inj rand f hlab b j (seq_mem_lt bbSeq _ hseq b hb) hj h)

/-- The rewrite skips return blocks. -/
theorem rewriteTot_ret (rand : Nat → Nat) (bbSeq : List Nat) (f : Fn S) (j : Nat)
    (ht : (dispBlk f j).term = Tm.ret) :
    rewriteTot rand bbSeq f j = dispBlk f j := by
  rw [rewriteTot]
  simp only [ht]

/-- The rewrite on a single-successor block. -/
theorem rewriteTot_br (rand : Nat → Nat) (bbSeq : List Nat) (f : Fn S) (j t : Nat)
    (ht : (dispBlk f j).term = Tm.br t) :
    rewriteTot rand bbSeq f j = ⟨(dispBlk f j).ins ++
      [.storeComputed .cfalse
        (labelAt rand f (idxOf bbSeq j) ^^^
          labelAt rand f (idxOf ((dispatched f).map Prod.fst) t))
        (labelAt rand f j ^^^
          labelAt rand f (idxOf ((dispatched f).map Prod.fst) t))],
      .br (loopEntryName f)⟩ := by
  rw [rewriteTot]
  simp only [ht]
  rfl

/-- The rewrite on a conditional block. -/
theorem rewriteTot_condbr (rand : Nat → Nat) (bbSeq : List Nat) (f : Fn S) (j : Nat)
    (c : S → Bool) (tb fb : Nat) (ht : (dispBlk f j).term = Tm.condbr c tb fb) :
    rewriteTot rand bbSeq f j = ⟨(dispBlk f j).ins ++
      [.storeComputed (.cvar c)
        (labelAt rand f (idxOf ((dispatched f).map Prod.fst) tb) ^^^
          labelAt rand f (idxOf ((dispatched f).map Prod.fst) fb))
        (labelAt rand f j ^^^
          labelAt rand f (idxOf ((dispatched f).map Prod.fst) fb))],
      .br (loopEntryName f)⟩ := by
  rw [rewriteTot]
  simp only [ht]
  rfl

/-- XOR cancellation used by the label arithmetic. -/
theorem xor_xor_cancel (a b : Nat) : (a ^^^ b) ^^^ a = b := by
  rw [Nat.xor_comm a b, Nat.xor_assoc, Nat.xor_self, Nat.xor_zero]

/-- Running the branchless chain with the condition forced to zero
stores the false-successor label. -/
theorem run_storeComputed_false (k1 a b : Nat) (s : S) (m : Nat) :
    (Ins.storeComputed Cnd.cfalse k1 (a ^^^ b)).run ⟨s, m, a⟩ = ⟨s, b, a⟩ := by
  show (⟨s, (sext32 (Cnd.cfalse.eval s) &&& k1) ^^^ ((a ^^^ b) ^^^ a), a⟩ : St S) = ⟨s, b, a⟩
  rw [Cnd.eval, sext32, if_neg (by simp), Nat.zero_and, Nat.zero_xor, xor_xor_cancel]

/-- Running the branchless chain over a live condition selects between
the two successor labels. -/
theorem run_storeComputed_var (c : S → Bool) (tl fl a : Nat)
    (htl : tl < UINT32) (hfl : fl < UINT32) (s : S) (m : Nat) :
    (Ins.storeComputed (Cnd.cvar c) (tl ^^^ fl) (a ^^^ fl)).run ⟨s, m, a⟩ =
      ⟨s, if c s then tl else fl, a⟩ := by
  show (⟨s, (sext32 ((Cnd.cvar c).eval s) &&& (tl ^^^ fl)) ^^^ ((a ^^^ fl) ^^^ a), a⟩ : St S) = _
  rw [Cnd.eval, sel_eq (c s) tl fl a htl hfl]

/-- One pass through the loop header: load the switch variable and
dispatch on it. -/
theorem flat_loop_step (rand : Nat → Nat) (bbSeq : List Nat) (f : Fn S)
    (e : Nat) (eb : Blk S) (rest : List (Nat × Blk S)) (hf : f.blocks = (e, eb) :: rest)
    (hlab : (bbIndex rand (dispatched f).length).Nodup)
    (hseq : bbSeq.Perm (List.range (dispatched f).length))
    (j : Nat) (hj : j < (dispatched f).length) (k : Nat) (s : S) (l0 : Nat) :
    exec ⟨flatBlocks rand bbSeq f⟩ (k + 1) (loopEntryName f) ⟨s, labelAt rand f j, l0⟩ =
      exec ⟨flatBlocks rand bbSeq f⟩ k (dispName f j)
        ⟨s, labelAt rand f j, labelAt rand f j⟩ := by
  have hb : assoc (flatBlocks rand bbSeq f) (loopEntryName f) =
      some (loopBlk rand bbSeq f) :=
    assoc_flat_loop rand bbSeq f e eb rest hf hseq
  have hrun : runIns (loopBlk rand bbSeq f).ins (⟨s, labelAt rand f j, l0⟩ : St S) =
      ⟨s, labelAt rand f j, labelAt rand f j⟩ := rfl
  have hn : Tm.next (loopBlk rand bbSeq f).term
      (runIns (loopBlk rand bbSeq f).ins ⟨s, labelAt rand f j, l0⟩) =
      some (some (dispName f j)) := by
    rw [hrun]
    show some (some ((assoc (fCases rand bbSeq f) (labelAt rand f j)).getD
      (loopEntryName f))) = some (some (dispName f j))
    rw [assoc_fCases rand bbSeq f hlab hseq j hj]
    rfl
  have hstep := exec_step (⟨flatBlocks rand bbSeq f⟩ : Fn S) k (loopEntryName f)
    ⟨s, labelAt rand f j, l0⟩ (loopBlk rand bbSeq f) (dispName f j) hb hn
  rw [hstep, hrun]

/-- A full dispatch round ending in a return block. -/
theorem flat_round_ret (rand : Nat → Nat) (bbSeq : List Nat) (f : Fn S)
    (e : Nat) (eb : Blk S) (rest : List (Nat × Blk S)) (hf : f.blocks = (e, eb) :: rest)
    (hc : FlatCtx rand bbSeq f)
    (j : Nat) (hj : j < (dispatched f).length) (ht : (dispBlk f j).term = Tm.ret)
    (k : Nat) (s : S) (l0 : Nat) :
    exec ⟨flatBlocks rand bbSeq f⟩ (k + 2) (loopEntryName f) ⟨s, labelAt rand f j, l0⟩ =
      some ⟨opsApply (dispBlk f j).ins s, labelAt rand f j, labelAt rand f j⟩ := by
  rw [show k + 2 = (k + 1) + 1 from rfl]
  rw [flat_loop_step rand bbSeq f e eb rest hf hc.hlab hc.hseq j hj (k + 1) s l0]
  have hops := (disp_mem_plain f e eb rest hf hc.hplain _ (disp_pair_mem f j hj)).1
  have hb := assoc_flat_disp rand bbSeq f e eb rest hf hc.hnd hc.hseq j hj
  rw [rewriteTot_ret rand bbSeq f j ht] at hb
  have hrun : runIns (dispBlk f j).ins (⟨s, labelAt rand f j, labelAt rand f j⟩ : St S) =
      ⟨opsApply (dispBlk f j).ins s, labelAt rand f j, labelAt rand f j⟩ :=
    runIns_ops _ _ hops
  have hn : Tm.next (dispBlk f j).term
      (runIns (dispBlk f j).ins ⟨s, labelAt rand f j, labelAt rand f j⟩) = some none := by
    rw [ht]
    rfl
  rw [exec_ret (⟨flatBlocks rand bbSeq f⟩ : Fn S) k _ _ _ hb hn, hrun]

/-- A full dispatch round through a single-successor block: the next
label stored is that of the branch target. -/
theorem flat_round_br (rand : Nat → Nat) (bbSeq : List Nat) (f : Fn S)
    (e : Nat) (eb : Blk S) (rest : List (Nat × Blk S)) (hf : f.blocks = (e, eb) :: rest)
    (hc : FlatCtx rand bbSeq f)
    (j : Nat) (hj : j < (dispatched f).length) (t : Nat)
    (ht : (dispBlk f j).term = Tm.br t) (k : Nat) (s : S) (l0 : Nat) :
    exec ⟨flatBlocks rand bbSeq f⟩ (k + 2) (loopEntryName f) ⟨s, labelAt rand f j, l0⟩ =
      exec ⟨flatBlocks rand bbSeq f⟩ k (loopEntryName f)
        ⟨opsApply (dispBlk f j).ins s,
         labelAt rand f (idxOf ((dispatched f).map Prod.fst) t), labelAt rand f j⟩ := by
  rw [show k + 2 = (k + 1) + 1 from rfl]
  rw [flat_loop_step rand bbSeq f e eb rest hf hc.hlab hc.hseq j hj (k + 1) s l0]
  have hops := (disp_mem_plain f e eb rest hf hc.hplain _ (disp_pair_mem f j hj)).1
  have hb := assoc_flat_disp rand bbSeq f e eb rest hf hc.hnd hc.hseq j hj
  rw [rewriteTot_br rand bbSeq f j t ht] at hb
  have hσ : runIns (dispBlk f j).ins (⟨s, labelAt rand f j, labelAt rand f j⟩ : St S) =
      ⟨opsApply (dispBlk f j).ins s, labelAt rand f j, labelAt rand f j⟩ :=
    runIns_ops _ _ hops
  have hrun : runIns ((dispBlk f j).ins ++
      [.storeComputed .cfalse
        (labelAt rand f (idxOf bbSeq j) ^^^
          labelAt rand f (idxOf ((dispatched f).map Prod.fst) t))
        (labelAt rand f j ^^^
          labelAt rand f (idxOf ((dispatched f).map Prod.fst) t))])
      (⟨s, labelAt rand f j, labelAt rand f j⟩ : St S) =
      ⟨opsApply (dispBlk f j).ins s,
       labelAt rand f (idxOf ((dispatched f).map Prod.fst) t), labelAt rand f j⟩ := by
    rw [runIns_append, hσ]
    exact run_storeComputed_false _ _ _ _ _
  have hn : Tm.next (Tm.br (loopEntryName f) : Tm S)
      (runIns ((dispBlk f j).ins ++
        [.storeComputed .cfalse
          (labelAt rand f (idxOf bbSeq j) ^^^
            labelAt rand f (idxOf ((dispatched f).map Prod.fst) t))
          (labelAt rand f j ^^^
            labelAt rand f (idxOf ((dispatched f).map Prod.fst) t))])
        ⟨s, labelAt rand f j, labelAt rand f j⟩) = some (some (loopEntryName f)) := rfl
  rw [exec_step (⟨flatBlocks rand bbSeq f⟩ : Fn S) k _ _ _ _ hb hn, hrun]

/-- A full dispatch round through a conditional block: the next label
stored selects between the two successor labels by the condition. -/
theorem flat_round_condbr (rand : Nat → Nat) (bbSeq : List Nat) (f : Fn S)
    (e : Nat) (eb : Blk S) (rest : List (Nat × Blk S)) (hf : f.blocks = (e, eb) :: rest)
    (hc : FlatCtx rand bbSeq f)
    (j : Nat) (hj : j < (dispatched f).length) (c : S → Bool) (tb fb : Nat)
    (ht : (dispBlk f j).term = Tm.condbr c tb fb) (k : Nat) (s : S) (l0 : Nat) :
    exec ⟨flatBlocks rand bbSeq f⟩ (k + 2) (loopEntryName f) ⟨s, labelAt rand f j, l0⟩ =
      exec ⟨flatBlocks rand bbSeq f⟩ k (loopEntryName f)
        ⟨opsApply (dispBlk f j).ins s,
         if c (opsApply (dispBlk f j).ins s) then
           labelAt rand f (idxOf ((dispatched f).map Prod.fst) tb)
         else labelAt rand f (idxOf ((dispatched f).map Prod.fst) fb),
         labelAt rand f j⟩ := by
  rw [show k + 2 = (k + 1) + 1 from rfl]
  rw [flat_loop_step rand bbSeq f e eb rest hf hc.hlab hc.hseq j hj (k + 1) s l0]
  have hops := (disp_mem_plain f e eb rest hf hc.hplain _ (disp_pair_mem f j hj)).1
  have hb := assoc_flat_disp rand bbSeq f e eb rest hf hc.hnd hc.hseq j hj
  rw [rewriteTot_condbr rand bbSeq f j c tb fb ht] at hb
  have hσ : runIns (dispBlk f j).ins (⟨s, labelAt rand f j, labelAt rand f j⟩ : St S) =
      ⟨opsApply (dispBlk f j).ins s, labelAt rand f j, labelAt rand f j⟩ :=
    runIns_ops _ _ hops
  have hrun : runIns ((dispBlk f j).ins ++
      [.storeComputed (.cvar c)
        (labelAt rand f (idxOf ((dispatched f).map Prod.fst) tb) ^^^
          labelAt rand f (idxOf ((dispatched f).map Prod.fst) fb))
        (labelAt rand f j ^^^
          labelAt rand f (idxOf ((dispatched f).map Prod.fst) fb))])
      (⟨s, labelAt rand f j, labelAt rand f j⟩ : St S) =
      ⟨opsApply (dispBlk f j).ins s,
       if c (opsApply (dispBlk f j).ins s) then
         labelAt rand f (idxOf ((dispatched f).map Prod.fst) tb)
       else labelAt rand f (idxOf ((dispatched f).map Prod.fst) fb),
       labelAt rand f j⟩ := by
    rw [runIns_append, hσ]
    exact run_storeComputed_var c _ _ _ (labelAt_lt rand f _) (labelAt_lt rand f _) _ _
  rw [exec_step (⟨flatBlocks rand bbSeq f⟩ : Fn S) k _ _ _ (loopEntryName f) hb (by rw [hrun]; rfl), hrun]

/-- A successful `assoc` lookup is a member with that key. -/
theorem assoc_mem {β : Type} (l : List (Nat × β)) (n : Nat) (v : β)
    (h : assoc l n = some v) : (n, v) ∈ l := by
  induction l with
  | nil => cases h
  | cons p l ih =>
    cases p with
    | mk k w =>
      rw [assoc_cons] at h
      by_cases hk : k = n
      · rw [if_pos hk] at h
        subst hk
        obtain rfl : w = v := Option.some.inj h
        exact List.mem_cons_self _ _
      · rw [if_neg hk] at h
        exact List.mem_cons_of_mem _ (ih h)

/-- The head with default is position zero with default. -/
theorem headD_eq_getD (l : List Nat) (d : Nat) : l.headD d = l.getD 0 d := by
  cases l with
  | nil => rfl
  | cons x l => rfl

/-- `opsApply` distributes over append. -/
theorem opsApply_append (l1 l2 : List (Ins S)) (s : S) :
    opsApply (l1 ++ l2) s = opsApply l2 (opsApply l1 s) := by
  simp [opsApply, List.foldl_append]

/-- Splitting a body does not change its combined effect. -/
theorem opsApply_take_drop (l : List (Ins S)) (i : Nat) (s : S) :
    opsApply (l.drop i) (opsApply (l.take i) s) = opsApply l s := by
  rw [← opsApply_append, List.take_append_drop]

/-- The surviving entry instructions. -/
theorem entryProIns_eq (f : Fn S) (e : Nat) (eb : Blk S) (rest : List (Nat × Blk S))
    (hf : f.blocks = (e, eb) :: rest) :
    entryProIns f = if doSplit eb then eb.ins.take (eb.ins.length - 1) else eb.ins := by
  by_cases hd : doSplit eb = true
  · rw [entryProIns, splitLayout_split f e eb rest hf hd, if_pos hd]
  · have hd2 : doSplit eb = false := by simpa using hd
    rw [entryProIns, splitLayout_nosplit f e eb rest hf hd2, hd2]
    simp

/-- When the split fires, position zero dispatches the split block. -/
theorem disp_zero_split (f : Fn S) (e : Nat) (eb : Blk S) (rest : List (Nat × Blk S))
    (hf : f.blocks = (e, eb) :: rest) (hd : doSplit eb = true) :
    dispBlk f 0 = ⟨eb.ins.drop (eb.ins.length - 1), eb.term⟩ ∧
    dispName f 0 = splitName f := by
  have hD : dispatched f =
      (splitName f, ⟨eb.ins.drop (eb.ins.length - 1), eb.term⟩) :: rest := by
    rw [dispatched, splitLayout_split f e eb rest hf hd]
    rfl
  constructor
  · rw [dispBlk, hD, valAt_cons_zero]
  · rw [dispName, hD, List.map_cons, List.getD_cons_zero]

/-- Without a split, position zero dispatches the block laid out after
the entry block. -/
theorem dispName_zero_nosplit (f : Fn S) (e : Nat) (eb : Blk S) (rest : List (Nat × Blk S))
    (hf : f.blocks = (e, eb) :: rest) (hd : doSplit eb = false) :
    dispName f 0 = (rest.map Prod.fst).headD 0 := by
  have hD : dispatched f = rest := by
    rw [dispatched, splitLayout_nosplit f e eb rest hf hd]
    rfl
  rw [dispName, hD, headD_eq_getD]

/-- Looking up a non-entry block in the original procedure gives the
dispatched block at the position its name holds among the dispatched
names. -/
theorem assoc_orig (f : Fn S) (e : Nat) (eb : Blk S) (rest : List (Nat × Blk S))
    (hf : f.blocks = (e, eb) :: rest) (hnd : f.names.Nodup) (nm : Nat)
    (hm : nm ∈ rest.map Prod.fst) :
    assoc f.blocks nm = some (dispBlk f (idxOf ((dispatched f).map Prod.fst) nm)) ∧
    idxOf ((dispatched f).map Prod.fst) nm < (dispatched f).length := by
  have hcons : (e :: rest.map Prod.fst).Nodup := by
    rw [← names_eq f e eb rest hf]
    exact hnd
  have hrestnd : (rest.map Prod.fst).Nodup := (List.nodup_cons.mp hcons).2
  have hen : e ≠ nm := fun h => (List.nodup_cons.mp hcons).1 (h ▸ hm)
  have hrest : assoc f.blocks nm = assoc rest nm := by
    rw [hf, assoc_cons, if_neg hen]
  have hrest2 : assoc rest nm =
      some (valAt ⟨[], Tm.ret⟩ rest (idxOf (rest.map Prod.fst) nm)) :=
    assoc_of_mem_nodup _ rest nm hrestnd hm
  have hmd : nm ∈ (dispatched f).map Prod.fst := rest_sub_dispNames f e eb rest hf nm hm
  have hlt : idxOf ((dispatched f).map Prod.fst) nm < (dispatched f).length := by
    have := idxOf_lt_length _ nm hmd
    rw [List.length_map] at this
    exact this
  refine ⟨?_, hlt⟩
  rcases dispatched_cases f e eb rest hf with ⟨hd, hD⟩ | ⟨hd, hD⟩
  · have hns : splitName f ≠ nm := by
      intro h
      exact splitName_not_mem f (h ▸ rest_mem_names f e eb rest hf nm hm)
    rw [hrest, hrest2, hD, List.map_cons, idxOf, if_neg hns, dispBlk, hD]
    rw [valAt_cons_succ]
  · rw [hrest, hrest2, dispBlk, hD]

/-- The entry block of a plain accepted procedure ends either in an
unconditional branch to the first non-entry block, or in a conditional
branch. -/
theorem entry_shape (f : Fn S) (e : Nat) (eb : Blk S) (rest : List (Nat × Blk S))
    (hf : f.blocks = (e, eb) :: rest) (he : entryOkB f = true) :
    (∃ t, eb.term = Tm.br t ∧ t = (rest.map Prod.fst).headD 0) ∨
    (∃ c tb fb, eb.term = Tm.condbr c tb fb) := by
  have he2 : entryTermOkB f eb.term = true := by
    rw [entryOkB, hf] at he
    exact he
  cases ht : eb.term with
  | ret =>
    rw [ht] at he2
    exact absurd he2 (by simp [entryTermOkB])
  | br t =>
    rw [ht] at he2
    refine Or.inl ⟨t, rfl, ?_⟩
    rw [← nonEntryNames_eq f e eb rest hf]
    exact of_decide_eq_true (by simpa [entryTermOkB] using he2)
  | condbr c tb fb => exact Or.inr ⟨c, tb, fb, rfl⟩
  | switchLoaded cs d =>
    rw [ht] at he2
    exact absurd he2 (by simp [entryTermOkB])
  | invoke n u =>
    rw [ht] at he2
    exact absurd he2 (by simp [entryTermOkB])

/-- Entry lookup in the original procedure. -/
theorem assoc_entry (f : Fn S) (e : Nat) (eb : Blk S) (rest : List (Nat × Blk S))
    (hf : f.blocks = (e, eb) :: rest) : assoc f.blocks e = some eb := by
  rw [hf, assoc_cons, if_pos rfl]

/-- Reduce a boolean conditional with a true condition. -/
theorem ite_of_eq_true {α : Sort 1} (b : Bool) (hb : b = true) (x y : α) :
    (if b then x else y) = x := by
  rw [hb]
  simp

/-- Reduce a boolean conditional with a false condition. -/
theorem ite_of_eq_false {α : Sort 1} (b : Bool) (hb : b = false) (x y : α) :
    (if b then x else y) = y := by
  rw [hb]
  simp

/-- Forward simulation: a terminating run of the original procedure
from a non-entry block induces a terminating run of the rewritten
procedure from the loop header with the matching label and the same
final program state. -/
theorem sim_forward (rand : Nat → Nat) (bbSeq : List Nat) (f : Fn S)
    (e : Nat) (eb : Blk S) (rest : List (Nat × Blk S)) (hf : f.blocks = (e, eb) :: rest)
    (hc : FlatCtx rand bbSeq f) :
    ∀ (k : Nat) (nm : Nat) (s : S) (m l l0 : Nat) (r : St S),
      nm ∈ rest.map Prod.fst →
      exec f k nm ⟨s, m, l⟩ = some r →
      ∃ (k2 : Nat) (r2 : St S),
        exec ⟨flatBlocks rand bbSeq f⟩ k2 (loopEntryName f)
          ⟨s, labelAt rand f (idxOf ((dispatched f).map Prod.fst) nm), l0⟩ = some r2 ∧
        r2.s = r.s := by
  intro k
  induction k with
  | zero =>
    intro nm s m l l0 r hnm hex
    cases hex
  | succ k ih =>
    intro nm s m l l0 r hnm hex
    obtain ⟨hb, hj⟩ := assoc_orig f e eb rest hf hc.hnd nm hnm
    set jn := idxOf ((dispatched f).map Prod.fst) nm with hjn
    have hplainb := disp_mem_plain f e eb rest hf hc.hplain _ (disp_pair_mem f jn hj)
    have hops := hplainb.1
    cases htm : (dispBlk f jn).term with
    | ret =>
      have hn : Tm.next (dispBlk f jn).term (runIns (dispBlk f jn).ins ⟨s, m, l⟩) =
          some none := by
        rw [htm]
        rfl
      rw [exec_ret f k nm _ _ hb hn, runIns_ops _ _ hops] at hex
      refine ⟨2, ⟨opsApply (dispBlk f jn).ins s, labelAt rand f jn, labelAt rand f jn⟩,
        flat_round_ret rand bbSeq f e eb rest hf hc jn hj htm 0 s l0, ?_⟩
      obtain rfl : (⟨opsApply (dispBlk f jn).ins s, m, l⟩ : St S) = r := Option.some.inj hex
      rfl
    | br t =>
      have hn : Tm.next (dispBlk f jn).term (runIns (dispBlk f jn).ins ⟨s, m, l⟩) =
          some (some t) := by
        rw [htm]
        rfl
      rw [exec_step f k nm _ _ t hb hn, runIns_ops _ _ hops] at hex
      have htr : t ∈ rest.map Prod.fst :=
        disp_succ_rest f e eb rest hf hc.hsucc _ (disp_pair_mem f jn hj) t
          (by rw [htm]; simp [Tm.branchSuccs])
      obtain ⟨k2, r2, hex2, hs⟩ :=
        ih t (opsApply (dispBlk f jn).ins s) m l (labelAt rand f jn) r htr hex
      refine ⟨k2 + 2, r2, ?_, hs⟩
      rw [flat_round_br rand bbSeq f e eb rest hf hc jn hj t htm k2 s l0]
      exact hex2
    | condbr c tb fb =>
      have htb : tb ∈ rest.map Prod.fst :=
        disp_succ_rest f e eb rest hf hc.hsucc _ (disp_pair_mem f jn hj) tb
          (by rw [htm]; simp [Tm.branchSuccs])
      have hfb : fb ∈ rest.map Prod.fst :=
        disp_succ_rest f e eb rest hf hc.hsucc _ (disp_pair_mem f jn hj) fb
          (by rw [htm]; simp [Tm.branchSuccs])
      have hn : Tm.next (dispBlk f jn).term (runIns (dispBlk f jn).ins ⟨s, m, l⟩) =
          some (some (if c (opsApply (dispBlk f jn).ins s) then tb else fb)) := by
        rw [htm, runIns_ops _ _ hops]
        rfl
      rw [exec_step f k nm _ _ _ hb hn, runIns_ops _ _ hops] at hex
      have hflat := flat_round_condbr rand bbSeq f e eb rest hf hc jn hj c tb fb htm
      cases hcs : c (opsApply (dispBlk f jn).ins s) with
      | true =>
        rw [ite_of_eq_true _ hcs] at hex
        obtain ⟨k2, r2, hex2, hs⟩ :=
          ih tb (opsApply (dispBlk f jn).ins s) m l (labelAt rand f jn) r htb hex
        refine ⟨k2 + 2, r2, ?_, hs⟩
        have h3 := hflat k2 s l0
        rw [ite_of_eq_true _ hcs] at h3
        rw [h3]
        exact hex2
      | false =>
        rw [ite_of_eq_false _ hcs] at hex
        obtain ⟨k2, r2, hex2, hs⟩ :=
          ih fb (opsApply (dispBlk f jn).ins s) m l (labelAt rand f jn) r hfb hex
        refine ⟨k2 + 2, r2, ?_, hs⟩
        have h3 := hflat k2 s l0
        rw [ite_of_eq_false _ hcs] at h3
        rw [h3]
        exact hex2
    | switchLoaded cs d =>
      rw [htm] at hplainb
      exact absurd hplainb.2 (by simp [Tm.isPlainB])
    | invoke n u =>
      rw [htm] at hplainb
      exact absurd hplainb.2 (by simp [Tm.isPlainB])

/-- Backward simulation: a terminating run of the rewritten procedure
from the loop header carrying the label of a non-entry block induces a
terminating run of the original procedure from that block with the
same final program state. -/
theorem sim_backward (rand : Nat → Nat) (bbSeq : List Nat) (f : Fn S)
    (e : Nat) (eb : Blk S) (rest : List (Nat × Blk S)) (hf : f.blocks = (e, eb) :: rest)
    (hc : FlatCtx rand bbSeq f) :
    ∀ (k2 : Nat) (j : Nat) (s : S) (l0 m l : Nat) (r2 : St S),
      j < (dispatched f).length →
      dispName f j ∈ rest.map Prod.fst →
      exec ⟨flatBlocks rand bbSeq f⟩ k2 (loopEntryName f) ⟨s, labelAt rand f j, l0⟩ =
        some r2 →
      ∃ (k : Nat) (r : St S), exec f k (dispName f j) ⟨s, m, l⟩ = some r ∧ r.s = r2.s := by
  intro k2
  induction k2 using Nat.strong_induction_on with
  | _ k2 IH =>
    intro j s l0 m l r2 hj hnm hex
    have hio := assoc_orig f e eb rest hf hc.hnd (dispName f j) hnm
    have hjeq : idxOf ((dispatched f).map Prod.fst) (dispName f j) = j := by
      have hndd := dispNames_nodup f e eb rest hf hc.hnd
      exact idxOf_getD _ j hndd (by rw [List.length_map]; exact hj)
    rw [hjeq] at hio
    obtain ⟨hb, _⟩ := hio
    have hplainb := disp_mem_plain f e eb rest hf hc.hplain _ (disp_pair_mem f j hj)
    have hops := hplainb.1
    rcases k2 with _ | k2p
    · simp [exec] at hex
    rcases k2p with _ | k3
    · rw [flat_loop_step rand bbSeq f e eb rest hf hc.hlab hc.hseq j hj 0 s l0] at hex
      simp [exec] at hex
    cases htm : (dispBlk f j).term with
    | ret =>
      rw [flat_round_ret rand bbSeq f e eb rest hf hc j hj htm k3 s l0] at hex
      refine ⟨1, ⟨opsApply (dispBlk f j).ins s, m, l⟩, ?_, ?_⟩
      · have hn : Tm.next (dispBlk f j).term (runIns (dispBlk f j).ins ⟨s, m, l⟩) =
            some none := by
          rw [htm]
          rfl
        rw [exec_ret f 0 (dispName f j) _ _ hb hn, runIns_ops _ _ hops]
      · obtain rfl :
            (⟨opsApply (dispBlk f j).ins s, labelAt rand f j, labelAt rand f j⟩ : St S) =
              r2 := Option.some.inj hex
        rfl
    | br t =>
      rw [flat_round_br rand bbSeq f e eb rest hf hc j hj t htm k3 s l0] at hex
      have htr : t ∈ rest.map Prod.fst :=
        disp_succ_rest f e eb rest hf hc.hsucc _ (disp_pair_mem f j hj) t
          (by rw [htm]; simp [Tm.branchSuccs])
      have hjt : idxOf ((dispatched f).map Prod.fst) t < (dispatched f).length :=
        (assoc_orig f e eb rest hf hc.hnd t htr).2
      have hdn : dispName f (idxOf ((dispatched f).map Prod.fst) t) = t := by
        rw [dispName]
        exact getD_idxOf _ t (rest_sub_dispNames f e eb rest hf t htr)
      obtain ⟨k0, r, hex0, hs⟩ := IH k3 (by omega) (idxOf ((dispatched f).map Prod.fst) t)
        (opsApply (dispBlk f j).ins s) (labelAt rand f j) m l r2 hjt
        (by rw [hdn]; exact htr) hex
      refine ⟨k0 + 1, r, ?_, hs⟩
      have hn : Tm.next (dispBlk f j).term (runIns (dispBlk f j).ins ⟨s, m, l⟩) =
          some (some t) := by
        rw [htm]
        rfl
      rw [exec_step f k0 (dispName f j) _ _ t hb hn, runIns_ops _ _ hops, ← hdn]
      exact hex0
    | condbr c tb fb =>
      rw [flat_round_condbr rand bbSeq f e eb rest hf hc j hj c tb fb htm k3 s l0] at hex
      have htb : tb ∈ rest.map Prod.fst :=
        disp_succ_rest f e eb rest hf hc.hsucc _ (disp_pair_mem f j hj) tb
          (by rw [htm]; simp [Tm.branchSuccs])
      have hfb : fb ∈ rest.map Prod.fst :=
        disp_succ_rest f e eb rest hf hc.hsucc _ (disp_pair_mem f j hj) fb
          (by rw [htm]; simp [Tm.branchSuccs])
      have hn : Tm.next (dispBlk f j).term (runIns (dispBlk f j).ins ⟨s, m, l⟩) =
          some (some (if c (opsApply (dispBlk f j).ins s) then tb else fb)) := by
        rw [htm, runIns_ops _ _ hops]
        rfl
      cases hcs : c (opsApply (dispBlk f j).ins s) with
      | true =>
        rw [ite_of_eq_true _ hcs] at hex
        have hjt : idxOf ((dispatched f).map Prod.fst) tb < (dispatched f).length :=
          (assoc_orig f e eb rest hf hc.hnd tb htb).2
        have hdn : dispName f (idxOf ((dispatched f).map Prod.fst) tb) = tb := by
          rw [dispName]
          exact getD_idxOf _ tb (rest_sub_dispNames f e eb rest hf tb htb)
        obtain ⟨k0, r, hex0, hs⟩ := IH k3 (by omega)
          (idxOf ((dispatched f).map Prod.fst) tb)
          (opsApply (dispBlk f j).ins s) (labelAt rand f j) m l r2 hjt
          (by rw [hdn]; exact htb) hex
        refine ⟨k0 + 1, r, ?_, hs⟩
        rw [exec_step f k0 (dispName f j) _ _ _ hb hn, runIns_ops _ _ hops,
          ite_of_eq_true _ hcs, ← hdn]
        exact hex0
      | false =>
        rw [ite_of_eq_false _ hcs] at hex
        have hjt : idxOf ((dispatched f).map Prod.fst) fb < (dispatched f).length :=
          (assoc_orig f e eb rest hf hc.hnd fb hfb).2
        have hdn : dispName f (idxOf ((dispatched f).map Prod.fst) fb) = fb := by
          rw [dispName]
          exact getD_idxOf _ fb (rest_sub_dispNames f e eb rest hf fb hfb)
        obtain ⟨k0, r, hex0, hs⟩ := IH k3 (by omega)
          (idxOf ((dispatched f).map Prod.fst) fb)
          (opsApply (dispBlk f j).ins s) (labelAt rand f j) m l r2 hjt
          (by rw [hdn]; exact hfb) hex
        refine ⟨k0 + 1, r, ?_, hs⟩
        rw [exec_step f k0 (dispName f j) _ _ _ hb hn, runIns_ops _ _ hops,
          ite_of_eq_false _ hcs, ← hdn]
        exact hex0
    | switchLoaded cs d =>
      rw [htm] at hplainb
      exact absurd hplainb.2 (by simp [Tm.isPlainB])
    | invoke n u =>
      rw [htm] at hplainb
      exact absurd hplainb.2 (by simp [Tm.isPlainB])

/-- The first step of the rewritten procedure: run the surviving entry
instructions, allocate and initialize the switch variable with the
label of the first dispatched block, and enter the loop header. -/
theorem flat_entry_step (rand : Nat → Nat) (bbSeq : List Nat) (f : Fn S)
    (e : Nat) (eb : Blk S) (rest : List (Nat × Blk S)) (hf : f.blocks = (e, eb) :: rest)
    (hplain : f.plainB = true) (k : Nat) (s : S) (m l : Nat) :
    exec ⟨flatBlocks rand bbSeq f⟩ (k + 1) e ⟨s, m, l⟩ =
      exec ⟨flatBlocks rand bbSeq f⟩ k (loopEntryName f)
        ⟨opsApply (entryProIns f) s, labelAt rand f 0, l⟩ := by
  have hb := assoc_flat_entry rand bbSeq f e eb rest hf
  have hebops := (plain_block f hplain (e, eb)
    (by rw [hf]; exact List.mem_cons_self _ _)).1
  have hpro : (entryProIns f).all Ins.isOpB = true := by
    rw [entryProIns_eq f e eb rest hf]
    by_cases hd : doSplit eb = true
    · rw [if_pos hd, List.all_eq_true]
      intro i hi
      exact List.all_eq_true.mp hebops i (List.take_subset _ _ hi)
    · rw [if_neg hd]
      exact hebops
  have hrun : runIns (flatEntryBlk rand f).ins (⟨s, m, l⟩ : St S) =
      ⟨opsApply (entryProIns f) s, labelAt rand f 0, l⟩ := by
    show runIns (entryProIns f ++ [.alloca, .storeConst (labelAt rand f 0)]) ⟨s, m, l⟩ = _
    rw [runIns_append, runIns_ops _ _ hpro]
    rfl
  have hn : Tm.next (flatEntryBlk rand f).term
      (runIns (flatEntryBlk rand f).ins ⟨s, m, l⟩) = some (some (loopEntryName f)) := rfl
  rw [exec_step (⟨flatBlocks rand bbSeq f⟩ : Fn S) k e _ _ _ hb hn, hrun]

/-- The head of a nonempty name list is a member. -/
theorem headD_mem (l : List Nat) (hl : l ≠ []) : l.headD 0 ∈ l := by
  cases l with
  | nil => exact absurd rfl hl
  | cons x xs => exact List.mem_cons_self _ _

/-- Forward simulation from the entry block. -/
theorem top_forward (rand : Nat → Nat) (bbSeq : List Nat) (f : Fn S)
    (e : Nat) (eb : Blk S) (rest : List (Nat × Blk S)) (hf : f.blocks = (e, eb) :: rest)
    (hc : FlatCtx rand bbSeq f) :
    ∀ (k : Nat) (s : S) (m l m2 l2 : Nat) (r : St S),
      exec f k e ⟨s, m, l⟩ = some r →
      ∃ (k2 : Nat) (r2 : St S),
        exec ⟨flatBlocks rand bbSeq f⟩ k2 e ⟨s, m2, l2⟩ = some r2 ∧ r2.s = r.s := by
  intro k s m l m2 l2 r hex
  have hmem : (e, eb) ∈ f.blocks := by
    rw [hf]
    exact List.mem_cons_self _ _
  have hebops := (plain_block f hc.hplain (e, eb) hmem).1
  have hplt := (plain_block f hc.hplain (e, eb) hmem).2
  have hb0 := assoc_entry f e eb rest hf
  have hrestne := rest_ne_nil f e eb rest hf hc.hlen
  have hn0 := disp_len_pos f e eb rest hf hc.hlen
  rcases k with _ | k1
  · simp [exec] at hex
  rcases entry_shape f e eb rest hf hc.hentry with ⟨t, htm, htv⟩ | ⟨c, tb, fb, htm⟩
  · -- entry ends in an unconditional branch to the first non-entry block
    have hd : doSplit eb = false := by
      rw [doSplit_plain eb hplt, htm]
      rfl
    have hn : Tm.next eb.term (runIns eb.ins ⟨s, m, l⟩) = some (some t) := by
      rw [htm]
      rfl
    rw [exec_step f k1 e _ _ t hb0 hn, runIns_ops _ _ hebops] at hex
    have htmem : t ∈ rest.map Prod.fst := by
      rw [htv]
      exact headD_mem _ (by simpa using hrestne)
    obtain ⟨k2, r2, hex2, hs⟩ := sim_forward rand bbSeq f e eb rest hf hc k1 t
      (opsApply eb.ins s) m l l2 r htmem hex
    have hidx0 : idxOf ((dispatched f).map Prod.fst) t = 0 := by
      have h0 : dispName f 0 = t := by
        rw [dispName_zero_nosplit f e eb rest hf hd, ← htv]
      rw [← h0, dispName]
      exact idxOf_getD _ 0 (dispNames_nodup f e eb rest hf hc.hnd)
        (by rw [List.length_map]; exact hn0)
    rw [hidx0] at hex2
    refine ⟨k2 + 1, r2, ?_, hs⟩
    rw [flat_entry_step rand bbSeq f e eb rest hf hc.hplain k2 s m2 l2]
    rw [entryProIns_eq f e eb rest hf, hd, if_neg (by simp)]
    exact hex2
  · -- entry ends in a conditional branch: the split fires
    have hd : doSplit eb = true := by
      rw [doSplit_plain eb hplt, htm]
      rfl
    obtain ⟨hdb0, hdn0⟩ := disp_zero_split f e eb rest hf hd
    have hterm0 : (dispBlk f 0).term = Tm.condbr c tb fb := by
      rw [hdb0]
      exact htm
    have htb : tb ∈ rest.map Prod.fst := by
      rw [← nonEntryNames_eq f e eb rest hf]
      exact succ_closed f hc.hsucc (e, eb) hmem tb (by rw [htm]; simp [Tm.branchSuccs])
    have hfb : fb ∈ rest.map Prod.fst := by
      rw [← nonEntryNames_eq f e eb rest hf]
      exact succ_closed f hc.hsucc (e, eb) hmem fb (by rw [htm]; simp [Tm.branchSuccs])
    have hn : Tm.next eb.term (runIns eb.ins ⟨s, m, l⟩) =
        some (some (if c (opsApply eb.ins s) then tb else fb)) := by
      rw [htm, runIns_ops _ _ hebops]
      rfl
    rw [exec_step f k1 e _ _ _ hb0 hn, runIns_ops _ _ hebops] at hex
    have hcomp : opsApply (dispBlk f 0).ins (opsApply (entryProIns f) s) =
        opsApply eb.ins s := by
      rw [hdb0, entryProIns_eq f e eb rest hf, if_pos hd]
      exact opsApply_take_drop eb.ins (eb.ins.length - 1) s
    cases hcs : c (opsApply eb.ins s) with
    | true =>
      rw [ite_of_eq_true _ hcs] at hex
      obtain ⟨k2, r2, hex2, hs⟩ := sim_forward rand bbSeq f e eb rest hf hc k1 tb
        (opsApply eb.ins s) m l (labelAt rand f 0) r htb hex
      refine ⟨k2 + 2 + 1, r2, ?_, hs⟩
      rw [flat_entry_step rand bbSeq f e eb rest hf hc.hplain (k2 + 2) s m2 l2]
      rw [flat_round_condbr rand bbSeq f e eb rest hf hc 0 hn0 c tb fb hterm0 k2
        (opsApply (entryProIns f) s) l2]
      rw [hcomp, ite_of_eq_true _ hcs]
      exact hex2
    | false =>
      rw [ite_of_eq_false _ hcs] at hex
      obtain ⟨k2, r2, hex2, hs⟩ := sim_forward rand bbSeq f e eb rest hf hc k1 fb
        (opsApply eb.ins s) m l (labelAt rand f 0) r hfb hex
      refine ⟨k2 + 2 + 1, r2, ?_, hs⟩
      rw [flat_entry_step rand bbSeq f e eb rest hf hc.hplain (k2 + 2) s m2 l2]
      rw [flat_round_condbr rand bbSeq f e eb rest hf hc 0 hn0 c tb fb hterm0 k2
        (opsApply (entryProIns f) s) l2]
      rw [hcomp, ite_of_eq_false _ hcs]
      exact hex2

/-- Backward simulation from the entry block. -/
theorem top_backward (rand : Nat → Nat) (bbSeq : List Nat) (f : Fn S)
    (e : Nat) (eb : Blk S) (rest : List (Nat × Blk S)) (hf : f.blocks = (e, eb) :: rest)
    (hc : FlatCtx rand bbSeq f) :
    ∀ (k2 : Nat) (s : S) (m l m2 l2 : Nat) (r2 : St S),
      exec ⟨flatBlocks rand bbSeq f⟩ k2 e ⟨s, m2, l2⟩ = some r2 →
      ∃ (k : Nat) (r : St S), exec f k e ⟨s, m, l⟩ = some r ∧ r.s = r2.s := by
  intro k2 s m l m2 l2 r2 hex2
  have hmem : (e, eb) ∈ f.blocks := by
    rw [hf]
    exact List.mem_cons_self _ _
  have hebops := (plain_block f hc.hplain (e, eb) hmem).1
  have hplt := (plain_block f hc.hplain (e, eb) hmem).2
  have hb0 := assoc_entry f e eb rest hf
  have hrestne := rest_ne_nil f e eb rest hf hc.hlen
  have hn0 := disp_len_pos f e eb rest hf hc.hlen
  rcases k2 with _ | k2p
  · simp [exec] at hex2
  rw [flat_entry_step rand bbSeq f e eb rest hf hc.hplain k2p s m2 l2] at hex2
  rcases entry_shape f e eb rest hf hc.hentry with ⟨t, htm, htv⟩ | ⟨c, tb, fb, htm⟩
  · have hd : doSplit eb = false := by
      rw [doSplit_plain eb hplt, htm]
      rfl
    rw [entryProIns_eq f e eb rest hf, hd, if_neg (by simp)] at hex2
    have hdn0 : dispName f 0 = t := by
      rw [dispName_zero_nosplit f e eb rest hf hd, ← htv]
    have hnm0 : dispName f 0 ∈ rest.map Prod.fst := by
      rw [hdn0, htv]
      exact headD_mem _ (by simpa using hrestne)
    obtain ⟨k0, r, hex0, hs⟩ := sim_backward rand bbSeq f e eb rest hf hc k2p 0
      (opsApply eb.ins s) l2 m l r2 hn0 hnm0 hex2
    refine ⟨k0 + 1, r, ?_, hs⟩
    have hn : Tm.next eb.term (runIns eb.ins ⟨s, m, l⟩) = some (some t) := by
      rw [htm]
      rfl
    rw [exec_step f k0 e _ _ t hb0 hn, runIns_ops _ _ hebops, ← hdn0]
    exact hex0
  · have hd : doSplit eb = true := by
      rw [doSplit_plain eb hplt, htm]
      rfl
    obtain ⟨hdb0, hdn0⟩ := disp_zero_split f e eb rest hf hd
    have hterm0 : (dispBlk f 0).term = Tm.condbr c tb fb := by
      rw [hdb0]
      exact htm
    have htb : tb ∈ rest.map Prod.fst := by
      rw [← nonEntryNames_eq f e eb rest hf]
      exact succ_closed f hc.hsucc (e, eb) hmem tb (by rw [htm]; simp [Tm.branchSuccs])
    have hfb : fb ∈ rest.map Prod.fst := by
      rw [← nonEntryNames_eq f e eb rest hf]
      exact succ_closed f hc.hsucc (e, eb) hmem fb (by rw [htm]; simp [Tm.branchSuccs])
    have hcomp : opsApply (dispBlk f 0).ins (opsApply (entryProIns f) s) =
        opsApply eb.ins s := by
      rw [hdb0, entryProIns_eq f e eb rest hf, if_pos hd]
      exact opsApply_take_drop eb.ins (eb.ins.length - 1) s
    rcases k2p with _ | k2q
    · simp [exec] at hex2
    rcases k2q with _ | k3
    · rw [flat_loop_step rand bbSeq f e eb rest hf hc.hlab hc.hseq 0 hn0 0
        (opsApply (entryProIns f) s) l2] at hex2
      simp [exec] at hex2
    rw [flat_round_condbr rand bbSeq f e eb rest hf hc 0 hn0 c tb fb hterm0 k3
      (opsApply (entryProIns f) s) l2] at hex2
    rw [hcomp] at hex2
    cases hcs : c (opsApply eb.ins s) with
    | true =>
      rw [ite_of_eq_true _ hcs] at hex2
      have hjt : idxOf ((dispatched f).map Prod.fst) tb < (dispatched f).length :=
        (assoc_orig f e eb rest hf hc.hnd tb htb).2
      have hdnt : dispName f (idxOf ((dispatched f).map Prod.fst) tb) = tb := by
        rw [dispName]
        exact getD_idxOf _ tb (rest_sub_dispNames f e eb rest hf tb htb)
      obtain ⟨k0, r, hex0, hs⟩ := sim_backward rand bbSeq f e eb rest hf hc k3
        (idxOf ((dispatched f).map Prod.fst) tb) (opsApply eb.ins s)
        (labelAt rand f 0) m l r2 hjt (by rw [hdnt]; exact htb) hex2
      refine ⟨k0 + 1, r, ?_, hs⟩
      have hn : Tm.next eb.term (runIns eb.ins ⟨s, m, l⟩) = some (some tb) := by
        rw [htm, runIns_ops _ _ hebops]
        show some (some (if c (opsApply eb.ins s) then tb else fb)) = _
        rw [ite_of_eq_true _ hcs]
      rw [exec_step f k0 e _ _ tb hb0 hn, runIns_ops _ _ hebops, ← hdnt]
      exact hex0
    | false =>
      rw [ite_of_eq_false _ hcs] at hex2
      have hjt : idxOf ((dispatched f).map Prod.fst) fb < (dispatched f).length :=
        (assoc_orig f e eb rest hf hc.hnd fb hfb).2
      have hdnt : dispName f (idxOf ((dispatched f).map Prod.fst) fb) = fb := by
        rw [dispName]
        exact getD_idxOf _ fb (rest_sub_dispNames f e eb rest hf fb hfb)
      obtain ⟨k0, r, hex0, hs⟩ := sim_backward rand bbSeq f e eb rest hf hc k3
        (idxOf ((dispatched f).map Prod.fst) fb) (opsApply eb.ins s)
        (labelAt rand f 0) m l r2 hjt (by rw [hdnt]; exact hfb) hex2
      refine ⟨k0 + 1, r, ?_, hs⟩
      have hn : Tm.next eb.term (runIns eb.ins ⟨s, m, l⟩) = some (some fb) := by
        rw [htm, runIns_ops _ _ hebops]
        show some (some (if c (opsApply eb.ins s) then tb else fb)) = _
        rw [ite_of_eq_false _ hcs]
      rw [exec_step f k0 e _ _ fb hb0 hn, runIns_ops _ _ hebops, ← hdnt]
      exact hex0

/-- Claim C2 (amended): for every plain well-formed procedure accepted
by the validator — duplicate-free block names, branch targets among the
non-entry blocks, at least two blocks — whose entry block either ends
in a conditional branch or branches unconditionally to the block laid
out directly after it, and whose independently drawn labels happen to
be pairwise distinct, the transform succeeds and the rewritten
procedure reaches a final program state with observable component `v`
for some fuel exactly when the original procedure does, from the same
input state. -/
theorem flatten_preserves_semantics {S : Type} (rand : Nat → Nat) (bbSeq : List Nat)
    (f : Fn S) (hnd : f.names.Nodup) (hplain : f.plainB = true)
    (hsucc : f.succClosedB = true) (hlen : 2 ≤ f.blocks.length)
    (hentry : entryOkB f = true)
    (hlab : (bbIndex rand (dispatched f).length).Nodup)
    (hseq : bbSeq.Perm (List.range (dispatched f).length))
    (s : S) (m l m2 l2 : Nat) (v : S) :
    ∃ F, flatten rand bbSeq f = FlatRes.ok F ∧
      ((∃ k r, exec f k f.entryName ⟨s, m, l⟩ = some r ∧ r.s = v) ↔
       (∃ k2 r2, exec F k2 f.entryName ⟨s, m2, l2⟩ = some r2 ∧ r2.s = v)) := by
  have hc : FlatCtx rand bbSeq f := ⟨hnd, hplain, hsucc, hentry, hlab, hseq, hlen⟩
  obtain ⟨e, eb, rest, hf⟩ : ∃ e eb rest, f.blocks = (e, eb) :: rest := by
    cases hF : f.blocks with
    | nil =>
      rw [hF] at hlen
      exact absurd hlen (by simp)
    | cons p rest =>
      obtain ⟨e0, eb0⟩ := p
      exact ⟨e0, eb0, rest, rfl⟩
  refine ⟨⟨flatBlocks rand bbSeq f⟩, flatten_ok_of_ctx rand bbSeq f e eb rest hf hc, ?_⟩
  rw [entryName_eq f e eb rest hf]
  constructor
  · rintro ⟨k, r, hex, hrs⟩
    obtain ⟨k2, r2, hex2, hs⟩ :=
      top_forward rand bbSeq f e eb rest hf hc k s m l m2 l2 r hex
    exact ⟨k2, r2, hex2, hs.trans hrs⟩
  · rintro ⟨k2, r2, hex2, hrs⟩
    obtain ⟨k, r, hex, hs⟩ :=
      top_backward rand bbSeq f e eb rest hf hc k2 s m l m2 l2 r2 hex2
    exact ⟨k, r, hex, hs.trans hrs⟩

/-- A plain three-block procedure whose entry block branches over the
block laid out directly after it.  The validator accepts it, its names
are duplicate-free, and all branch targets are non-entry blocks. -/
def skipFn : Fn Nat :=
  ⟨[(10, ⟨[], Tm.br 30⟩),
    (20, ⟨[Ins.op (fun _ => 1)], Tm.ret⟩),
    (30, ⟨[Ins.op (fun _ => 2)], Tm.ret⟩)]⟩

/-- Claim C2 counterexample: on a validator-accepted, plain, fully
well-formed procedure whose entry branches over the following block,
and with pairwise distinct drawn labels, the transform initializes the
state variable with the label of the block laid out after the entry
rather than the branch target, so the flattened procedure returns 1
while the original returns 2: the transform is not unconditionally
behavior-preserving. -/
theorem flatten_changes_behavior_on_skip :
    skipFn.plainB = true ∧ skipFn.names.Nodup ∧ skipFn.succClosedB = true ∧
    (bbIndex (fun i => i) (dispatched skipFn).length).Nodup ∧
    ([0, 1] : List Nat).Perm (List.range (dispatched skipFn).length) ∧
    (exec skipFn 5 10 ⟨0, 0, 0⟩).map St.s = some 2 ∧
    flatten (fun i => i) [0, 1] skipFn =
      FlatRes.ok ⟨flatBlocks (fun i => i) [0, 1] skipFn⟩ ∧
    (exec (⟨flatBlocks (fun i => i) [0, 1] skipFn⟩ : Fn Nat) 5 10 ⟨0, 0, 0⟩).map St.s =
      some 1 := by
  refine ⟨rfl, by decide, rfl, by decide, by decide, rfl, rfl, rfl⟩

/-- A plain four-block if/else diamond used as a witness input. -/
def diamondFn : Fn Nat :=
  ⟨[(10, ⟨[Ins.op (fun s => s + 1)], Tm.condbr (fun s => decide (s = 1)) 20 30⟩),
    (20, ⟨[Ins.op (fun s => s + 10)], Tm.br 40⟩),
    (30, ⟨[Ins.op (fun s => s + 100)], Tm.br 40⟩),
    (40, ⟨[Ins.op (fun s => s * 2)], Tm.ret⟩)]⟩

/-- Witness for claim C2 on the diamond procedure: both the original
and the flattened procedure return 22 from input state 0. -/
theorem flatten_preserves_semantics_witness :
    ∃ F, flatten (fun i => i + 7) [0, 1, 2, 3] diamondFn = FlatRes.ok F ∧
      ((∃ k r, exec diamondFn k diamondFn.entryName ⟨0, 0, 0⟩ = some r ∧ r.s = 22) ↔
       (∃ k2 r2, exec F k2 diamondFn.entryName ⟨0, 0, 0⟩ = some r2 ∧ r2.s = 22)) :=
  flatten_preserves_semantics (fun i => i + 7) [0, 1, 2, 3] diamondFn
    (by decide) rfl rfl (by decide) rfl (by decide) (by decide) 0 0 0 0 0 22

/-- Inversion of a successful transform run. -/
theorem flatten_ok_inv (rand : Nat → Nat) (bbSeq : List Nat) (f F : Fn S)
    (h : flatten rand bbSeq f = FlatRes.ok F) :
    F = ⟨flatBlocks rand bbSeq f⟩ ∧ f.hasInvokeB = false ∧ 1 < f.blocks.length ∧
    bbSeq.all (rewriteOkB bbSeq f) = true := by
  rw [flatten] at h
  by_cases h1 : f.hasInvokeB = true
  · rw [if_pos h1] at h
    cases h
  · have h1f : f.hasInvokeB = false := by simpa using h1
    rw [if_neg h1] at h
    by_cases h2 : f.blocks.length ≤ 1
    · rw [if_pos h2] at h
      cases h
    · rw [if_neg h2] at h
      by_cases h3 : bbSeq.all (rewriteOkB bbSeq f) = true
      · rw [if_pos h3] at h
        exact ⟨(FlatRes.ok.inj h).symm, h1f, by omega, h3⟩
      · rw [if_neg h3] at h
        cases h

/-- The terminator of a dispatched block is the terminator of some
block of the input procedure. -/
theorem disp_term_src (f : Fn S) (e : Nat) (eb : Blk S) (rest : List (Nat × Blk S))
    (hf : f.blocks = (e, eb) :: rest) (p : Nat × Blk S) (hm : p ∈ dispatched f) :
    ∃ q ∈ f.blocks, p.2.term = q.2.term := by
  rcases dispatched_cases f e eb rest hf with ⟨hd, hD⟩ | ⟨hd, hD⟩
  · rw [hD] at hm
    rcases List.mem_cons.mp hm with h1 | h1
    · exact ⟨(e, eb), by rw [hf]; exact List.mem_cons_self _ _, by rw [h1]⟩
    · exact ⟨p, by rw [hf]; exact List.mem_cons_of_mem _ h1, rfl⟩
  · rw [hD] at hm
    exact ⟨p, by rw [hf]; exact List.mem_cons_of_mem _ hm, rfl⟩

/-- No block of a procedure passing the unwind check has an unwind
terminator. -/
theorem not_invoke_of_hasInvokeB_false (f : Fn S) (hinv : f.hasInvokeB = false)
    (p : Nat × Blk S) (hm : p ∈ f.blocks) : p.2.term.isInvokeB = false := by
  rw [Fn.hasInvokeB, List.any_eq_false] at hinv
  simpa using hinv p hm

/-- Extract the per-block input-variant check. -/
theorem spec_form_block (f : Fn S) (hs : f.specFormB = true) (p : Nat × Blk S)
    (hm : p ∈ f.blocks) : p.2.term.isSpecFormB = true := by
  rw [Fn.specFormB, List.all_eq_true] at hs
  exact hs p hm

/-- Extract the dispatched-successor closure check. -/
theorem disp_succ_closed (f : Fn S) (hdisp : dispSuccClosedB f = true) (p : Nat × Blk S)
    (hm : p ∈ dispatched f) (t : Nat) (ht : t ∈ p.2.term.branchSuccs) :
    t ∈ (dispatched f).map Prod.fst := by
  rw [dispSuccClosedB, List.all_eq_true] at hdisp
  have h := hdisp p hm
  rw [List.all_eq_true] at h
  exact of_decide_eq_true (h t ht)

/-- Under the input contract of the data model — terminators restricted
to return, branches and unwind — with no unwind present and with every
branch successor of a dispatched block itself dispatched, every
shuffled position passes the rewrite checks. -/
theorem rewriteOk_of_wf (bbSeq : List Nat) (f : Fn S)
    (e : Nat) (eb : Blk S) (rest : List (Nat × Blk S)) (hf : f.blocks = (e, eb) :: rest)
    (hspec : f.specFormB = true) (hinv : f.hasInvokeB = false)
    (hdisp : dispSuccClosedB f = true)
    (hseq : bbSeq.Perm (List.range (dispatched f).length))
    (b : Nat) (hb : b ∈ bbSeq) : rewriteOkB bbSeq f b = true := by
  have hbn : b < (dispatched f).length := seq_mem_lt bbSeq _ hseq b hb
  have hget : (dispatched f)[b]? = some ((dispatched f).get ⟨b, hbn⟩) := by
    rw [List.getElem?_eq_getElem hbn]
    rfl
  have hmem : (dispatched f).get ⟨b, hbn⟩ ∈ dispatched f := List.get_mem _ _ _
  obtain ⟨q, hq, hterm⟩ := disp_term_src f e eb rest hf _ hmem
  have hqspec := spec_form_block f hspec q hq
  have hqinv := not_invoke_of_hasInvokeB_false f hinv q hq
  have hmaplen : ((dispatched f).map Prod.fst).length = (dispatched f).length :=
    List.length_map _ _
  have hseqlen : bbSeq.length = (dispatched f).length := seq_length bbSeq _ hseq
  have hidxb : idxOf bbSeq b < (dispatched f).length := by
    rw [← hseqlen]
    exact idxOf_lt_length bbSeq b hb
  have hsuccd : ∀ t ∈ ((dispatched f).get ⟨b, hbn⟩).2.term.branchSuccs,
      idxOf ((dispatched f).map Prod.fst) t < (dispatched f).length := by
    intro t ht
    have := disp_succ_closed f hdisp _ hmem t ht
    rw [← hmaplen]
    exact idxOf_lt_length _ t this
  rw [rewriteOkB]
  simp only [hget]
  cases ht : ((dispatched f).get ⟨b, hbn⟩).2.term with
  | ret => simp
  | br t =>
    have h1 := hsuccd t (by rw [ht]; simp [Tm.branchSuccs])
    simp [h1, hidxb]
  | condbr c tb fb =>
    have h1 := hsuccd tb (by rw [ht]; simp [Tm.branchSuccs])
    have h2 := hsuccd fb (by rw [ht]; simp [Tm.branchSuccs])
    simp [h1, h2]
  | switchLoaded cs d =>
    rw [ht] at hterm
    rw [← hterm] at hqspec
    exact absurd hqspec (by simp [Tm.isSpecFormB])
  | invoke n u =>
    rw [ht] at hterm
    rw [← hterm] at hqinv
    exact absurd hqinv (by simp [Tm.isInvokeB])

/-- Claim C10: on every input procedure whose terminators are the input
variants of the data model (return, unconditional branch, conditional
branch, unwind — each with at most two successors) and in which every
branch successor of a dispatched block is itself a dispatched block,
the successor-rewriting loop never fails its two-successor assertion
and every position used to read the `bbIndex` and `origBB` vectors is
in bounds: the transform never reaches the undefined-behavior outcome. -/
theorem flatten_no_fault (rand : Nat → Nat) (bbSeq : List Nat) (f : Fn S)
    (hspec : f.specFormB = true) (hdisp : dispSuccClosedB f = true)
    (hseq : bbSeq.Perm (List.range (dispatched f).length)) :
    flatten rand bbSeq f ≠ FlatRes.fault := by
  intro hcontra
  rw [flatten] at hcontra
  by_cases h1 : f.hasInvokeB = true
  · rw [if_pos h1] at hcontra
    cases hcontra
  · have h1f : f.hasInvokeB = false := by simpa using h1
    rw [if_neg h1] at hcontra
    by_cases h2 : f.blocks.length ≤ 1
    · rw [if_pos h2] at hcontra
      cases hcontra
    · rw [if_neg h2] at hcontra
      obtain ⟨e, eb, rest, hf⟩ : ∃ e eb rest, f.blocks = (e, eb) :: rest := by
        cases hF : f.blocks with
        | nil =>
          rw [hF] at h2
          exact absurd (by simp) h2
        | cons p rest =>
          obtain ⟨e0, eb0⟩ := p
          exact ⟨e0, eb0, rest, rfl⟩
      have hall : bbSeq.all (rewriteOkB bbSeq f) = true := by
        rw [List.all_eq_true]
        intro b hb
        exact rewriteOk_of_wf bbSeq f e eb rest hf hspec h1f hdisp hseq b hb
      rw [if_pos hall] at hcontra
      cases hcontra

/-- Witness for claim C10 at the diamond procedure. -/
theorem flatten_no_fault_witness :
    flatten (fun i => i) [0, 1, 2, 3] diamondFn ≠ FlatRes.fault :=
  flatten_no_fault (fun i => i) [0, 1, 2, 3] diamondFn rfl rfl (by decide)

/-- Claim C3: the transform returns the no-change result — leaving the
procedure untouched — exactly when some block ends in an unwind
terminator or the procedure has at most one block; on every other
well-formed input it returns the rewritten procedure, which differs
from the input (it has strictly more blocks). -/
theorem flatten_rejected_iff (rand : Nat → Nat) (bbSeq : List Nat) (f : Fn S)
    (hspec : f.specFormB = true) (hdisp : dispSuccClosedB f = true)
    (hseq : bbSeq.Perm (List.range (dispatched f).length)) :
    (flatten rand bbSeq f = FlatRes.rejected ↔
      ((∃ p ∈ f.blocks, p.2.term.isInvokeB = true) ∨ f.blocks.length ≤ 1)) ∧
    (¬ ((∃ p ∈ f.blocks, p.2.term.isInvokeB = true) ∨ f.blocks.length ≤ 1) →
      ∃ F, flatten rand bbSeq f = FlatRes.ok F ∧
        f.blocks.length < F.blocks.length) := by
  have hinv_any : f.hasInvokeB = true ↔ ∃ p ∈ f.blocks, p.2.term.isInvokeB = true := by
    rw [Fn.hasInvokeB]
    exact List.any_eq_true
  constructor
  · constructor
    · intro h
      by_cases h1 : f.hasInvokeB = true
      · exact Or.inl (hinv_any.mp h1)
      · rw [flatten, if_neg h1] at h
        by_cases h2 : f.blocks.length ≤ 1
        · exact Or.inr h2
        · rw [if_neg h2] at h
          by_cases h3 : bbSeq.all (rewriteOkB bbSeq f) = true
          · rw [if_pos h3] at h
            cases h
          · rw [if_neg h3] at h
            cases h
    · intro h
      by_cases h1 : f.hasInvokeB = true
      · rw [flatten, if_pos h1]
      · rcases h with h | h
        · exact absurd (hinv_any.mpr h) h1
        · rw [flatten, if_neg h1, if_pos h]
  · intro h
    have hni : ∀ p ∈ f.blocks, p.2.term.isInvokeB ≠ true :=
      fun p hp hpi => h (Or.inl ⟨p, hp, hpi⟩)
    have hlen : ¬ f.blocks.length ≤ 1 := fun hx => h (Or.inr hx)
    have h1f : f.hasInvokeB = false := by
      by_cases h1 : f.hasInvokeB = true
      · obtain ⟨p, hp, hpi⟩ := hinv_any.mp h1
        exact absurd hpi (hni p hp)
      · simpa using h1
    obtain ⟨e, eb, rest, hf⟩ : ∃ e eb rest, f.blocks = (e, eb) :: rest := by
      cases hF : f.blocks with
      | nil =>
        rw [hF] at hlen
        exact absurd (by simp) hlen
      | cons p rest =>
        obtain ⟨e0, eb0⟩ := p
        exact ⟨e0, eb0, rest, rfl⟩
    have hall : bbSeq.all (rewriteOkB bbSeq f) = true := by
      rw [List.all_eq_true]
      intro b hb
      exact rewriteOk_of_wf bbSeq f e eb rest hf hspec h1f hdisp hseq b hb
    refine ⟨⟨flatBlocks rand bbSeq f⟩, ?_, ?_⟩
    · rw [flatten, if_neg (by simp [h1f]), if_neg hlen, if_pos hall]
    · show f.blocks.length < (flatBlocks rand bbSeq f).length
      have hlen2 : (flatBlocks rand bbSeq f).length =
          bbSeq.length + 2 := by
        rw [flatBlocks]
        simp
      have hseqlen : bbSeq.length = (dispatched f).length := seq_length bbSeq _ hseq
      rcases dispatched_cases f e eb rest hf with ⟨hd, hD⟩ | ⟨hd, hD⟩
      · have : (dispatched f).length = rest.length + 1 := by
          rw [hD]
          simp
        rw [hf]
        simp only [List.length_cons]
        omega
      · have : (dispatched f).length = rest.length := by rw [hD]
        rw [hf]
        simp only [List.length_cons]
        omega

/-- Witness for claim C3 at the diamond procedure: not rejected, and
the output has more blocks. -/
theorem flatten_rejected_iff_witness :
    (flatten (fun i => i) [0, 1, 2, 3] diamondFn = FlatRes.rejected ↔
      ((∃ p ∈ diamondFn.blocks, p.2.term.isInvokeB = true) ∨
        diamondFn.blocks.length ≤ 1)) ∧
    (¬ ((∃ p ∈ diamondFn.blocks, p.2.term.isInvokeB = true) ∨
        diamondFn.blocks.length ≤ 1) →
      ∃ F, flatten (fun i => i) [0, 1, 2, 3] diamondFn = FlatRes.ok F ∧
        diamondFn.blocks.length < F.blocks.length) :=
  flatten_rejected_iff (fun i => i) [0, 1, 2, 3] diamondFn rfl rfl (by decide)

/-- The case list of the dispatch switch found at a given block name. -/
def switchCasesOf (F : Fn S) (lname : Nat) : List (Nat × Nat) :=
  match assoc F.blocks lname with
  | some ⟨_, Tm.switchLoaded cs _⟩ => cs
  | _ => []

/-- Claim C4 (amended): after a successful transform run whose drawn
labels are pairwise distinct, the label of every dispatched block
appears as exactly one case of the dispatch switch, and the case lookup
of that label resolves to the name of that very block. -/
theorem flatten_cases_unique (rand : Nat → Nat) (bbSeq : List Nat) (f F : Fn S)
    (e : Nat) (eb : Blk S) (rest : List (Nat × Blk S)) (hf : f.blocks = (e, eb) :: rest)
    (hok : flatten rand bbSeq f = FlatRes.ok F)
    (hlab : (bbIndex rand (dispatched f).length).Nodup)
    (hseq : bbSeq.Perm (List.range (dispatched f).length))
    (j : Nat) (hj : j < (dispatched f).length) :
    (switchCasesOf F (loopEntryName f)).countP
      (fun cse => cse.1 == labelAt rand f j) = 1 ∧
    assoc (switchCasesOf F (loopEntryName f)) (labelAt rand f j) =
      some (dispName f j) := by
  obtain ⟨hFeq, _, _, _⟩ := flatten_ok_inv rand bbSeq f F hok
  subst hFeq
  have hcs : switchCasesOf (⟨flatBlocks rand bbSeq f⟩ : Fn S) (loopEntryName f) =
      fCases rand bbSeq f := by
    rw [switchCasesOf]
    rw [show assoc (Fn.blocks ⟨flatBlocks rand bbSeq f⟩) (loopEntryName f) =
      some (loopBlk rand bbSeq f) from assoc_flat_loop rand bbSeq f e eb rest hf hseq]
    rfl
  rw [hcs]
  refine ⟨?_, assoc_fCases rand bbSeq f hlab hseq j hj⟩
  rw [fCases, List.countP_map]
  have hcongr : ∀ b ∈ bbSeq,
      ((fun cse : Nat × Nat => cse.1 == labelAt rand f j) ∘
        (fun b => (labelAt rand f b, dispName f b))) b ↔ ((fun b => b == j) b) := by
    intro b hb
    have hbn := seq_mem_lt bbSeq _ hseq b hb
    constructor
    · intro hx
      have hlx : labelAt rand f b = labelAt rand f j := by simpa using hx
      simpa using labelAt_inj rand f hlab b j hbn hj hlx
    · intro hx
      have hbj : b = j := by simpa using hx
      simp [hbj]
  rw [List.countP_congr hcongr]
  have hjmem : j ∈ bbSeq := lt_mem_seq bbSeq _ hseq j hj
  have hnd : bbSeq.Nodup := (List.Perm.nodup_iff hseq).mpr (List.nodup_range _)
  show List.count j bbSeq = 1
  exact List.count_eq_one_of_mem hnd hjmem

/-- A plain three-block chain procedure used to exhibit a label
collision. -/
def chainFn : Fn Nat :=
  ⟨[(10, ⟨[], Tm.br 20⟩), (20, ⟨[], Tm.br 30⟩), (30, ⟨[], Tm.ret⟩)]⟩

/-- Claim C4 counterexample: with the label generator drawing the value
7 twice, the transform succeeds but installs the label 7 — the label
assigned to both dispatched blocks — as two distinct cases of the
dispatch switch, so the label of a dispatched block does not appear as
exactly one case and the labels are not pairwise distinct. -/
theorem flatten_cases_duplicate :
    flatten (fun _ => 7) [0, 1] chainFn =
      FlatRes.ok ⟨flatBlocks (fun _ => 7) [0, 1] chainFn⟩ ∧
    labelAt (fun _ => 7) chainFn 0 = 7 ∧ labelAt (fun _ => 7) chainFn 1 = 7 ∧
    (switchCasesOf (⟨flatBlocks (fun _ => 7) [0, 1] chainFn⟩ : Fn Nat)
      (loopEntryName chainFn)).countP (fun cse => cse.1 == 7) = 2 := by
  exact ⟨rfl, rfl, rfl, rfl⟩

/-- Witness for claim C4 on the chain procedure with distinct labels. -/
theorem flatten_cases_unique_witness :
    (switchCasesOf (⟨flatBlocks (fun i => i + 3) [1, 0] chainFn⟩ : Fn Nat)
      (loopEntryName chainFn)).countP
      (fun cse => cse.1 == labelAt (fun i => i + 3) chainFn 0) = 1 ∧
    assoc (switchCasesOf (⟨flatBlocks (fun i => i + 3) [1, 0] chainFn⟩ : Fn Nat)
      (loopEntryName chainFn)) (labelAt (fun i => i + 3) chainFn 0) =
      some (dispName chainFn 0) :=
  flatten_cases_unique (fun i => i + 3) [1, 0] chainFn
    ⟨flatBlocks (fun i => i + 3) [1, 0] chainFn⟩ 10 ⟨[], Tm.br 20⟩
    [(20, ⟨[], Tm.br 30⟩), (30, ⟨[], Tm.ret⟩)] rfl rfl (by decide) (by decide) 0
    (by decide)

/-- The terminator shapes a dispatched block can have after passing the
rewrite checks. -/
theorem rewriteOk_term_cases (bbSeq : List Nat) (f : Fn S) (b : Nat)
    (h : rewriteOkB bbSeq f b = true) :
    (dispBlk f b).term = Tm.ret ∨ (∃ t, (dispBlk f b).term = Tm.br t) ∨
    (∃ c tb fb, (dispBlk f b).term = Tm.condbr c tb fb) ∨
    (∃ d, (dispBlk f b).term = Tm.switchLoaded [] d) := by
  rw [rewriteOkB] at h
  cases hget : (dispatched f)[b]? with
  | none =>
    simp only [hget] at h
    simp at h
  | some p =>
    simp only [hget] at h
    have hpb : dispBlk f b = p.2 := by
      rw [dispBlk, valAt, hget]
    rw [hpb]
    cases htm : p.2.term with
    | ret => exact Or.inl rfl
    | br t => exact Or.inr (Or.inl ⟨t, rfl⟩)
    | condbr c tb fb => exact Or.inr (Or.inr (Or.inl ⟨c, tb, fb, rfl⟩))
    | switchLoaded cs d =>
      rw [htm] at h
      cases hcs : cs with
      | nil => exact Or.inr (Or.inr (Or.inr ⟨d, rfl⟩))
      | cons c0 cs0 =>
        rw [hcs] at h
        simp [List.isEmpty] at h
    | invoke n u =>
      rw [htm] at h
      simp at h

/-- The rewrite on a caseless-switch block (one successor, the default
target). -/
theorem rewriteTot_switch0 (rand : Nat → Nat) (bbSeq : List Nat) (f : Fn S) (j d : Nat)
    (ht : (dispBlk f j).term = Tm.switchLoaded [] d) :
    rewriteTot rand bbSeq f j = ⟨(dispBlk f j).ins ++
      [.storeComputed .cfalse
        (labelAt rand f (idxOf bbSeq j) ^^^
          labelAt rand f (idxOf ((dispatched f).map Prod.fst) d))
        (labelAt rand f j ^^^
          labelAt rand f (idxOf ((dispatched f).map Prod.fst) d))],
      .br (loopEntryName f)⟩ := by
  rw [rewriteTot]
  simp only [ht]
  rfl

/-- Claim C5: after a successful transform, each dispatched block whose
original terminator had at least one successor now ends with the store
of the computed next-state value followed by a single unconditional
branch to the loop header; return-terminated dispatched blocks are left
untouched; and no dispatched block branches directly to another
dispatched block (the only branch target is the loop header, which is
not dispatched). -/
theorem flatten_block_structure (rand : Nat → Nat) (bbSeq : List Nat) (f F : Fn S)
    (e : Nat) (eb : Blk S) (rest : List (Nat × Blk S)) (hf : f.blocks = (e, eb) :: rest)
    (hok : flatten rand bbSeq f = FlatRes.ok F)
    (hseq : bbSeq.Perm (List.range (dispatched f).length))
    (j : Nat) (hj : j < (dispatched f).length) :
    (dispName f j, rewriteTot rand bbSeq f j) ∈ F.blocks ∧
    ((dispBlk f j).term.numSucc = 0 → rewriteTot rand bbSeq f j = dispBlk f j) ∧
    (1 ≤ (dispBlk f j).term.numSucc →
      (∃ cnd k1 k2, (rewriteTot rand bbSeq f j).ins =
        (dispBlk f j).ins ++ [Ins.storeComputed cnd k1 k2]) ∧
      (rewriteTot rand bbSeq f j).term = Tm.br (loopEntryName f)) ∧
    loopEntryName f ∉ (dispatched f).map Prod.fst ∧
    (∀ t ∈ (rewriteTot rand bbSeq f j).term.branchSuccs,
      t ∉ (dispatched f).map Prod.fst) := by
  obtain ⟨hFeq, _, _, hall⟩ := flatten_ok_inv rand bbSeq f F hok
  subst hFeq
  have hjmem : j ∈ bbSeq := lt_mem_seq bbSeq _ hseq j hj
  have hokj : rewriteOkB bbSeq f j = true := List.all_eq_true.mp hall j hjmem
  have hlnd := lname_not_dispName f e eb rest hf
  refine ⟨?_, ?_, ?_, hlnd, ?_⟩
  · show (dispName f j, rewriteTot rand bbSeq f j) ∈ flatBlocks rand bbSeq f
    rw [flatBlocks]
    refine List.mem_cons_of_mem _ ?_
    refine List.mem_append_left _ ?_
    exact List.mem_map.mpr ⟨j, hjmem, rfl⟩
  · intro h0
    rcases rewriteOk_term_cases bbSeq f j hokj with ht | ⟨t, ht⟩ | ⟨c, tb, fb, ht⟩ | ⟨d, ht⟩
    · exact rewriteTot_ret rand bbSeq f j ht
    · rw [ht] at h0
      cases h0
    · rw [ht] at h0
      cases h0
    · rw [ht] at h0
      cases h0
  · intro h1
    rcases rewriteOk_term_cases bbSeq f j hokj with ht | ⟨t, ht⟩ | ⟨c, tb, fb, ht⟩ | ⟨d, ht⟩
    · rw [ht] at h1
      cases h1
    · rw [rewriteTot_br rand bbSeq f j t ht]
      exact ⟨⟨_, _, _, rfl⟩, rfl⟩
    · rw [rewriteTot_condbr rand bbSeq f j c tb fb ht]
      exact ⟨⟨_, _, _, rfl⟩, rfl⟩
    · rw [rewriteTot_switch0 rand bbSeq f j d ht]
      exact ⟨⟨_, _, _, rfl⟩, rfl⟩
  · intro t ht
    rcases rewriteOk_term_cases bbSeq f j hokj with h0 | ⟨t0, h0⟩ | ⟨c, tb, fb, h0⟩ | ⟨d, h0⟩
    · rw [rewriteTot_ret rand bbSeq f j h0, h0] at ht
      cases ht
    · rw [rewriteTot_br rand bbSeq f j t0 h0] at ht
      simp only [Tm.branchSuccs, List.mem_singleton] at ht
      rw [ht]
      exact hlnd
    · rw [rewriteTot_condbr rand bbSeq f j c tb fb h0] at ht
      simp only [Tm.branchSuccs, List.mem_singleton] at ht
      rw [ht]
      exact hlnd
    · rw [rewriteTot_switch0 rand bbSeq f j d h0] at ht
      simp only [Tm.branchSuccs, List.mem_singleton] at ht
      rw [ht]
      exact hlnd

/-- Witness for claim C5 on the diamond procedure at the dispatched
position of its split block. -/
theorem flatten_block_structure_witness :
    (dispName diamondFn 0, rewriteTot (fun i => i) [0, 1, 2, 3] diamondFn 0) ∈
      (⟨flatBlocks (fun i => i) [0, 1, 2, 3] diamondFn⟩ : Fn Nat).blocks ∧
    ((dispBlk diamondFn 0).term.numSucc = 0 →
      rewriteTot (fun i => i) [0, 1, 2, 3] diamondFn 0 = dispBlk diamondFn 0) ∧
    (1 ≤ (dispBlk diamondFn 0).term.numSucc →
      (∃ cnd k1 k2, (rewriteTot (fun i => i) [0, 1, 2, 3] diamondFn 0).ins =
        (dispBlk diamondFn 0).ins ++ [Ins.storeComputed cnd k1 k2]) ∧
      (rewriteTot (fun i => i) [0, 1, 2, 3] diamondFn 0).term =
        Tm.br (loopEntryName diamondFn)) ∧
    loopEntryName diamondFn ∉ (dispatched diamondFn).map Prod.fst ∧
    (∀ t ∈ (rewriteTot (fun i => i) [0, 1, 2, 3] diamondFn 0).term.branchSuccs,
      t ∉ (dispatched diamondFn).map Prod.fst) :=
  flatten_block_structure (fun i => i) [0, 1, 2, 3] diamondFn
    ⟨flatBlocks (fun i => i) [0, 1, 2, 3] diamondFn⟩ 10
    ⟨[Ins.op (fun s => s + 1)], Tm.condbr (fun s => decide (s = 1)) 20 30⟩
    [(20, ⟨[Ins.op (fun s => s + 10)], Tm.br 40⟩),
     (30, ⟨[Ins.op (fun s => s + 100)], Tm.br 40⟩),
     (40, ⟨[Ins.op (fun s => s * 2)], Tm.ret⟩)] rfl rfl (by decide) 0 (by decide)

/-- Claim C8: after a successful transform, the dispatch switch in the
loop header has the loop header itself as default target, so for every
loaded state value matching no case, control transfers back to the
loop header and nowhere else. -/
theorem flatten_default_self_loop (rand : Nat → Nat) (bbSeq : List Nat) (f F : Fn S)
    (e : Nat) (eb : Blk S) (rest : List (Nat × Blk S)) (hf : f.blocks = (e, eb) :: rest)
    (hok : flatten rand bbSeq f = FlatRes.ok F)
    (hseq : bbSeq.Perm (List.range (dispatched f).length)) :
    ∃ cs, assoc F.blocks (loopEntryName f) =
        some ⟨[Ins.loadSwitch], Tm.switchLoaded cs (loopEntryName f)⟩ ∧
      ∀ st : St S, assoc cs st.loaded = none →
        Tm.next (Tm.switchLoaded cs (loopEntryName f)) st =
          some (some (loopEntryName f)) := by
  obtain ⟨hFeq, _, _, _⟩ := flatten_ok_inv rand bbSeq f F hok
  subst hFeq
  refine ⟨fCases rand bbSeq f, ?_, ?_⟩
  · exact assoc_flat_loop rand bbSeq f e eb rest hf hseq
  · intro st hnone
    show some (some ((assoc (fCases rand bbSeq f) st.loaded).getD (loopEntryName f))) = _
    rw [hnone]
    rfl

/-- Witness for claim C8 on the chain procedure. -/
theorem flatten_default_self_loop_witness :
    ∃ cs, assoc (⟨flatBlocks (fun i => i) [1, 0] chainFn⟩ : Fn Nat).blocks
        (loopEntryName chainFn) =
        some ⟨[Ins.loadSwitch], Tm.switchLoaded cs (loopEntryName chainFn)⟩ ∧
      ∀ st : St Nat, assoc cs st.loaded = none →
        Tm.next (Tm.switchLoaded cs (loopEntryName chainFn)) st =
          some (some (loopEntryName chainFn)) :=
  flatten_default_self_loop (fun i => i) [1, 0] chainFn
    ⟨flatBlocks (fun i => i) [1, 0] chainFn⟩ 10 ⟨[], Tm.br 20⟩
    [(20, ⟨[], Tm.br 30⟩), (30, ⟨[], Tm.ret⟩)] rfl rfl (by decide)

/-- Claim C9: after a successful transform, the procedure starts with
the entry prologue, whose body is its surviving original instructions
followed by the allocation of the switch variable and a store of the
label assigned to the first dispatched block, and whose terminator —
replacing the erased original one — is a single unconditional branch to
the loop header. -/
theorem flatten_entry_block (rand : Nat → Nat) (bbSeq : List Nat) (f F : Fn S)
    (e : Nat) (eb : Blk S) (rest : List (Nat × Blk S)) (hf : f.blocks = (e, eb) :: rest)
    (hok : flatten rand bbSeq f = FlatRes.ok F) :
    F.blocks.head? = some (e, ⟨entryProIns f ++
      [Ins.alloca, Ins.storeConst (labelAt rand f 0)], Tm.br (loopEntryName f)⟩) ∧
    labelAt rand f 0 = (bbIndex rand (dispatched f).length).getD 0 0 := by
  obtain ⟨hFeq, _, _, _⟩ := flatten_ok_inv rand bbSeq f F hok
  subst hFeq
  constructor
  · show (flatBlocks rand bbSeq f).head? = _
    rw [flatBlocks, entryName_eq f e eb rest hf]
    rfl
  · rfl

/-- Witness for claim C9 on the chain procedure. -/
theorem flatten_entry_block_witness :
    (⟨flatBlocks (fun i => i + 5) [0, 1] chainFn⟩ : Fn Nat).blocks.head? =
      some (10, ⟨entryProIns chainFn ++
        [Ins.alloca, Ins.storeConst (labelAt (fun i => i + 5) chainFn 0)],
        Tm.br (loopEntryName chainFn)⟩) ∧
    labelAt (fun i => i + 5) chainFn 0 =
      (bbIndex (fun i => i + 5) (dispatched chainFn).length).getD 0 0 :=
  flatten_entry_block (fun i => i + 5) [0, 1] chainFn
    ⟨flatBlocks (fun i => i + 5) [0, 1] chainFn⟩ 10 ⟨[], Tm.br 20⟩
    [(20, ⟨[], Tm.br 30⟩), (30, ⟨[], Tm.ret⟩)] rfl rfl

/-- Claim C7 (amended): when the entry terminator is a branch point —
a conditional branch or any terminator with more than one successor —
the entry block is split: exactly its final one or two instructions
move into a new block placed immediately after it in layout (the
terminator always, plus the immediately preceding instruction whenever
the entry body is nonempty); the new block becomes the first dispatched
block and the remaining entry prologue is not dispatched. -/
theorem entry_split_structure (f : Fn S) (e : Nat) (eb : Blk S)
    (rest : List (Nat × Blk S)) (hf : f.blocks = (e, eb) :: rest)
    (hnd : f.names.Nodup)
    (hd : eb.term.isCondbrB = true ∨ 1 < eb.term.numSucc) :
    splitLayout f =
      (e, ⟨eb.ins.take (eb.ins.length - 1), Tm.br (splitName f)⟩) ::
      (splitName f, ⟨eb.ins.drop (eb.ins.length - 1), eb.term⟩) :: rest ∧
    dispatched f = (splitName f, ⟨eb.ins.drop (eb.ins.length - 1), eb.term⟩) :: rest ∧
    (eb.ins.drop (eb.ins.length - 1)).length = min 1 eb.ins.length ∧
    e ∉ (dispatched f).map Prod.fst := by
  have hds : doSplit eb = true := by
    rw [doSplit]
    rcases hd with h | h
    · rw [h]
      rfl
    · rw [Bool.or_eq_true]
      exact Or.inr (by simpa using h)
  have hsplit := splitLayout_split f e eb rest hf hds
  refine ⟨hsplit, ?_, ?_, entry_not_dispName f e eb rest hf hnd⟩
  · rw [dispatched, hsplit]
    rfl
  · rw [List.length_drop]
    omega

/-- The entry block of the diamond procedure. -/
def diamondEntryBlk : Blk Nat :=
  ⟨[Ins.op (fun s => s + 1)], Tm.condbr (fun s => decide (s = 1)) 20 30⟩

/-- The non-entry blocks of the diamond procedure. -/
def diamondRest : List (Nat × Blk Nat) :=
  [(20, ⟨[Ins.op (fun s => s + 10)], Tm.br 40⟩),
   (30, ⟨[Ins.op (fun s => s + 100)], Tm.br 40⟩),
   (40, ⟨[Ins.op (fun s => s * 2)], Tm.ret⟩)]

/-- Witness for claim C7 on the diamond procedure, whose entry ends in
a conditional branch and holds one instruction besides it. -/
theorem entry_split_structure_witness :
    splitLayout diamondFn =
      (10, ⟨diamondEntryBlk.ins.take (diamondEntryBlk.ins.length - 1),
        Tm.br (splitName diamondFn)⟩) ::
      (splitName diamondFn, ⟨diamondEntryBlk.ins.drop (diamondEntryBlk.ins.length - 1),
        diamondEntryBlk.term⟩) :: diamondRest ∧
    dispatched diamondFn = (splitName diamondFn,
      ⟨diamondEntryBlk.ins.drop (diamondEntryBlk.ins.length - 1),
        diamondEntryBlk.term⟩) :: diamondRest ∧
    (diamondEntryBlk.ins.drop (diamondEntryBlk.ins.length - 1)).length =
      min 1 diamondEntryBlk.ins.length ∧
    10 ∉ (dispatched diamondFn).map Prod.fst :=
  entry_split_structure diamondFn 10 diamondEntryBlk diamondRest rfl (by decide)
    (Or.inl rfl)

/-- An instruction of the entry block recorded with the register it
defines, to state which instruction the splitter moves. -/
structure SIns where
  dst : Option Nat
deriving DecidableEq

/-- The input terminator forms, with the condition of a conditional
branch given as the register holding it. -/
inductive STm where
  | ret : STm
  | br (t : Nat) : STm
  | condbr (c : Nat) (tb fb : Nat) : STm
deriving DecidableEq

/-- Number of successors. -/
def STm.numSucc : STm → Nat
  | .ret => 0
  | .br _ => 1
  | .condbr _ _ _ => 2

/-- Whether the terminator is a conditional branch. -/
def STm.isCondbrB : STm → Bool
  | .condbr _ _ _ => true
  | _ => false

/-- An entry block in the register-level view. -/
structure SBlk where
  ins : List SIns
  term : STm

/-- The non-terminator instructions that `splitBasicBlock` moves into
the new block at lines 97–107: when the split condition fires, the
instruction directly before the terminator whenever the block holds
more than just its terminator (`insert->size() > 1`), unconditionally
of what that instruction defines. -/
def splitMoved (b : SBlk) : List SIns :=
  if b.term.isCondbrB || decide (1 < b.term.numSucc) then
    b.ins.drop (b.ins.length - 1)
  else []

/-- Modelled from the spec: the defining instruction of the branch
condition — the instruction of the block whose destination register is
the condition operand of the conditional terminator. -/
def specCondDefiner (b : SBlk) : Option SIns :=
  match b.term with
  | .condbr c _ _ => b.ins.find? (fun i => i.dst == some c)
  | _ => none

/-- Claim C7 counterexample: in an entry block whose first instruction
defines register 0 — the branch condition — and whose second defines
register 1, the splitter moves the instruction defining register 1,
while the defining instruction of the branch condition stays behind:
the moved instruction is not the defining instruction of the branch
condition. -/
theorem split_moves_last_not_cond_definer :
    splitMoved ⟨[⟨some 0⟩, ⟨some 1⟩], STm.condbr 0 5 6⟩ = [⟨some 1⟩] ∧
    specCondDefiner ⟨[⟨some 0⟩, ⟨some 1⟩], STm.condbr 0 5 6⟩ = some ⟨some 0⟩ ∧
    (⟨some 0⟩ : SIns) ∉ splitMoved ⟨[⟨some 0⟩, ⟨some 1⟩], STm.condbr 0 5 6⟩ := by
  exact ⟨rfl, rfl, by decide⟩
